import Mathlib

set_option linter.unnecessarySeqFocus false

/-!
Verification of the resolution engine of the lab-work-rosetta repository
(src/auto_resolver.py), against its natural-language specification.

Strings are modelled as lists of characters (Str).  Python str.lower and
SQL LOWER are both modelled as character-wise Char.toLower; floating point
confidence arithmetic is modelled with exact rationals.  The similarity
scorer is difflib.SequenceMatcher with isjunk=None and the default
autojunk=True, embedded operation by operation below: b2j construction
with the popular-element purge, the j2len dynamic-programming loop of
find_longest_match, the two non-junk extension loops (the two junk
extension loops of the source never execute because isjunk=None makes
bjunk empty, so the isbjunk guard in them is always false), the recursive
block decomposition of get_matching_blocks, and ratio = 2M / T with
ratio = 1.0 when T = 0.
-/

namespace Rosetta

abbrev Str := List Char

/-- Character-wise lowercasing: model of Python str.lower and SQL LOWER
(identical on the ASCII data this program handles). -/
def lowerS (s : Str) : Str := s.map Char.toLower

/-- Indexing with a default, model of the always-in-range Python a[i]. -/
def getc (s : Str) (i : Nat) : Char := s.getD i ' '

/-- Ascending list of positions of character c in b: the b2j chain built by
SequenceMatcher.__chain_b before the junk purge. -/
def positions (b : Str) (c : Char) : List Nat :=
  (List.range b.length).filter (fun j => getc b j = c)

/-- The autojunk popularity test of __chain_b: with autojunk=True and
len(b) >= 200, an element is popular when it occurs more than
len(b) // 100 + 1 times. -/
def popularChar (b : Str) (c : Char) : Bool :=
  decide (200 ≤ b.length) && decide (b.length / 100 + 1 < (positions b c).length)

/-- b2j after the popular purge: popular characters lose all their
positions (isjunk is None in the source, so the bjunk purge is empty). -/
def b2j (b : Str) (c : Char) : List Nat :=
  if popularChar b c then [] else positions b c

/-- State of the find_longest_match dynamic program: the best block found
so far and the j2len dictionary (total function with default 0). -/
structure FlmSt where
  besti : Nat
  bestj : Nat
  bestsize : Nat
  j2len : Nat → Nat

/-- The k value of the inner loop at position j: j2len.get(j-1, 0) + 1,
with the get of the nonexistent key -1 returning the default 0 when
j = 0. -/
def innerK (old : Nat → Nat) (j : Nat) : Nat :=
  (match j with | 0 => 0 | Nat.succ j0 => old j0) + 1

/-- One iteration of the inner loop of find_longest_match at position j:
k written into the new row, and the best block updated when k > bestsize
(Python i-k+1 and j-k+1 are written i+1-k and j+1-k; the dynamic program
keeps k <= i+1 and k <= j+1 so the truncated subtraction agrees with the
Python value). -/
def innerStep (i : Nat) (old : Nat → Nat) (st : FlmSt) (j : Nat) : FlmSt :=
  let k := innerK old j
  let nj := fun x => if x = j then k else st.j2len x
  if st.bestsize < k then ⟨i + 1 - k, j + 1 - k, k, nj⟩
  else ⟨st.besti, st.bestj, st.bestsize, nj⟩

/-- One iteration of the outer loop of find_longest_match at position i:
the inner loop runs over the positions of a[i] in b restricted to
[blo, bhi) (the source skips j < blo with continue and leaves the loop at
the first j >= bhi; as the position list is ascending this equals the
filter), starting from an empty new j2len row. -/
def outerStep (a b : Str) (blo bhi : Nat) (st : FlmSt) (i : Nat) : FlmSt :=
  let js := (b2j b (getc a i)).filter (fun j => blo ≤ j ∧ j < bhi)
  js.foldl (innerStep i st.j2len) ⟨st.besti, st.bestj, st.bestsize, fun _ => 0⟩

/-- The dynamic-programming phase of find_longest_match over
i in range(alo, ahi), starting from (alo, blo, 0) and an empty j2len. -/
def flmDP (a b : Str) (alo ahi blo bhi : Nat) : FlmSt :=
  (List.range' alo (ahi - alo)).foldl (outerStep a b blo bhi) ⟨alo, blo, 0, fun _ => 0⟩

/-- First extension loop of find_longest_match: extend the best block
backwards while besti > alo, bestj > blo and a[besti-1] == b[bestj-1]
(the not isbjunk(...) conjunct is always true since bjunk is empty).
Structural on besti, which strictly decreases. -/
def extBack (a b : Str) (alo blo : Nat) : Nat → Nat → Nat → Nat × Nat × Nat
  | 0, bestj, bestsize => (0, bestj, bestsize)
  | bi + 1, bestj, bestsize =>
    if alo < bi + 1 ∧ blo < bestj ∧ getc a bi = getc b (bestj - 1) then
      extBack a b alo blo bi (bestj - 1) (bestsize + 1)
    else (bi + 1, bestj, bestsize)

/-- Second extension loop of find_longest_match, written with explicit
fuel: extend forwards while besti+bestsize < ahi, bestj+bestsize < bhi and
a[besti+bestsize] == b[bestj+bestsize] (again the junk guard is vacuous).
Each iteration needs besti + bestsize < ahi, so fuel ahi + 1 never runs
out before the loop condition fails. -/
def extFwdF (a b : Str) (ahi bhi besti bestj : Nat) : Nat → Nat → Nat
  | 0, bestsize => bestsize
  | fuel + 1, bestsize =>
    if besti + bestsize < ahi ∧ bestj + bestsize < bhi ∧
        getc a (besti + bestsize) = getc b (bestj + bestsize) then
      extFwdF a b ahi bhi besti bestj fuel (bestsize + 1)
    else bestsize

def extFwd (a b : Str) (ahi bhi besti bestj bestsize : Nat) : Nat :=
  extFwdF a b ahi bhi besti bestj (ahi + 1) bestsize

/-- find_longest_match(alo, ahi, blo, bhi) for SequenceMatcher(None, a, b):
dynamic program, then the two live extension loops.  The two junk
extension loops of the source are omitted: their guard isbjunk(...) is
false on every element because isjunk=None leaves bjunk empty. -/
def flm (a b : Str) (alo ahi blo bhi : Nat) : Nat × Nat × Nat :=
  let st := flmDP a b alo ahi blo bhi
  let p := extBack a b alo blo st.besti st.bestj st.bestsize
  (p.1, p.2.1, extFwd a b ahi bhi p.1 p.2.1 p.2.2)

/-- Total number of matched characters over the recursive block
decomposition of get_matching_blocks, with explicit fuel.  The source
explores the same subranges through an explicit queue; the queue order
does not affect the sum of the block sizes, and the adjacent-block
collapsing performed afterwards preserves that sum.  Each recursive call
strictly decreases (ahi - alo) + (bhi - blo), so any fuel above that
bound computes the full sum. -/
def matchTotalF (a b : Str) : Nat → Nat → Nat → Nat → Nat → Nat
  | 0, _, _, _, _ => 0
  | fuel + 1, alo, ahi, blo, bhi =>
    let t := flm a b alo ahi blo bhi
    if t.2.2 = 0 then 0
    else
      (if alo < t.1 ∧ blo < t.2.1 then matchTotalF a b fuel alo t.1 blo t.2.1 else 0)
      + t.2.2
      + (if t.1 + t.2.2 < ahi ∧ t.2.1 + t.2.2 < bhi then
          matchTotalF a b fuel (t.1 + t.2.2) ahi (t.2.1 + t.2.2) bhi else 0)

/-- M = total matched characters between a and b over the full ranges. -/
def matchTotal (a b : Str) : Nat :=
  matchTotalF a b (a.length + b.length + 1) 0 a.length 0 b.length

/-- SequenceMatcher.ratio(): 2.0 * M / T, and 1.0 when T = 0
(difflib._calculate_ratio). -/
def ratioQ (a b : Str) : ℚ :=
  if a.length + b.length = 0 then 1
  else 2 * (matchTotal a b : ℚ) / ((a.length : ℚ) + (b.length : ℚ))

/-- AutoResolver.similarity: SequenceMatcher(None, a.lower(), b.lower()).ratio(). -/
def similarity (a b : Str) : ℚ := ratioQ (lowerS a) (lowerS b)


/-! ## Text normalizer and abbreviation expander -/

/-- The punctuation set removed by AutoResolver.normalize
(the regex character class of commas, periods, question and exclamation
marks, colons, semicolons, parentheses, brackets and quotes; hyphens are
kept). -/
def isPunct (c : Char) : Bool :=
  c ∈ [',', '.', '?', '!', ':', ';', '(', ')', '[', ']', '"', Char.ofNat 39]

/-- ASCII whitespace matched by the regex class backslash-s and split by
Python str.split. -/
def isSpaceChar (c : Char) : Bool :=
  c ∈ [' ', '\t', '\n', '\r', '\x0b', '\x0c']

/-- Split on whitespace runs, dropping empty words: Python str.split(). -/
def splitWsAux : Str → Str → List Str
  | [], acc => if acc = [] then [] else [acc.reverse]
  | c :: rest, acc =>
    if isSpaceChar c then
      (if acc = [] then splitWsAux rest [] else acc.reverse :: splitWsAux rest [])
    else splitWsAux rest (c :: acc)

def splitWs (t : Str) : List Str := splitWsAux t []

/-- Join words with single spaces. -/
def joinSpace (l : List Str) : Str := (l.intersperse [' ']).flatten

/-- AutoResolver.normalize: lowercase and strip, replace runs of the
punctuation set by a space, collapse whitespace runs to single spaces and
strip.  Replacing each punctuation character by one space and then
splitting and rejoining on whitespace produces exactly the same string as
the two regex substitutions plus the strips of the source. -/
def normalize (text : Str) : Str :=
  joinSpace (splitWs ((lowerS text).map (fun c => if isPunct c then ' ' else c)))

/-- The EXPANSIONS table of AutoResolver, transcribed entry by entry. -/
def expansionsList : List (Str × Str) := [
  ("auto".data, "automated".data),
  ("abs".data, "absolute".data),
  ("calc".data, "calculated".data),
  ("scr".data, "screen".data),
  ("scrn".data, "screen".data),
  ("lvl".data, "level".data),
  ("tot".data, "total".data),
  ("dir".data, "direct".data),
  ("ind".data, "indirect".data),
  ("est".data, "esterase".data),
  ("phos".data, "phosphatase".data),
  ("bili".data, "bilirubin".data),
  ("creat".data, "creatinine".data),
  ("gluc".data, "glucose".data),
  ("chol".data, "cholesterol".data),
  ("trig".data, "triglycerides".data),
  ("hgb".data, "hemoglobin".data),
  ("hct".data, "hematocrit".data),
  ("plt".data, "platelet".data),
  ("wbc".data, "white blood cell".data),
  ("rbc".data, "red blood cell".data),
  ("neut".data, "neutrophil".data),
  ("lymph".data, "lymphocyte".data),
  ("mono".data, "monocyte".data),
  ("eos".data, "eosinophil".data),
  ("baso".data, "basophil".data),
  ("seg".data, "segmented".data),
  ("imm".data, "immature".data),
  ("gran".data, "granulocyte".data),
  ("ua".data, "urine".data),
  ("ur".data, "urine".data),
  ("ser".data, "serum".data),
  ("plas".data, "plasma".data),
  ("spec".data, "specific".data),
  ("grav".data, "gravity".data),
  ("sg".data, "specific gravity".data),
  ("le".data, "leukocyte esterase".data),
  ("alb".data, "albumin".data),
  ("glob".data, "globulin".data),
  ("alk".data, "alkaline".data),
  ("tp".data, "total protein".data),
  ("tbili".data, "total bilirubin".data),
  ("dbili".data, "direct bilirubin".data),
  ("ast".data, "aspartate aminotransferase".data),
  ("alt".data, "alanine aminotransferase".data),
  ("ggt".data, "gamma glutamyl transferase".data),
  ("ldh".data, "lactate dehydrogenase".data),
  ("ck".data, "creatine kinase".data),
  ("cpk".data, "creatine kinase".data),
  ("bnp".data, "natriuretic peptide".data),
  ("tsh".data, "thyroid stimulating hormone".data),
  ("ft4".data, "free t4".data),
  ("ft3".data, "free t3".data),
  ("psa".data, "prostate specific antigen".data),
  ("hba1c".data, "hemoglobin a1c".data),
  ("a1c".data, "hemoglobin a1c".data),
  ("egfr".data, "glomerular filtration rate".data),
  ("gfr".data, "glomerular filtration rate".data),
  ("inr".data, "international normalized ratio".data),
  ("pt".data, "prothrombin time".data),
  ("ptt".data, "partial thromboplastin time".data),
  ("aptt".data, "activated partial thromboplastin time".data),
  ("esr".data, "erythrocyte sedimentation rate".data),
  ("crp".data, "c-reactive protein".data),
  ("rf".data, "rheumatoid factor".data),
  ("ana".data, "antinuclear antibody".data),
  ("hiv".data, "human immunodeficiency virus".data),
  ("hep".data, "hepatitis".data),
  ("hbsag".data, "hepatitis b surface antigen".data),
  ("thc".data, "cannabinoid".data),
  ("pcp".data, "phencyclidine".data),
  ("amph".data, "amphetamine".data),
  ("barb".data, "barbiturate".data),
  ("benzo".data, "benzodiazepine".data),
  ("benzodia".data, "benzodiazepine".data),
  ("etoh".data, "ethanol".data)]

/-- EXPANSIONS.get(word, word). -/
def expandWord (w : Str) : Str :=
  ((expansionsList.find? (fun p => p.1 = w)).map (fun p => p.2)).getD w

/-- AutoResolver.expand_abbreviations: token-wise substitution. -/
def expandAbbrev (t : Str) : Str := joinSpace ((splitWs t).map expandWord)


/-! ## Data model: reference store rows and learned mappings -/

/-- A loinc_concept row (nullable component and short_name are modelled by
the empty string, matching the or-empty guards of the source). -/
structure LoincConcept where
  loinc_code : Str
  long_common_name : Str
  component : Str
  short_name : Str
deriving DecidableEq

/-- A lis_mapping row. -/
structure LisMapping where
  source_code : Str
  target_loinc : Str
deriving DecidableEq

/-- A concept_synonym row. -/
structure SynonymRow where
  loinc_code : Str
  synonym_text : Str
deriving DecidableEq

/-- An nci_concept row. -/
structure NciRow where
  nci_code : Str
  preferred_name : Str
  synonyms : Str
deriving DecidableEq

/-- A learned_mapping row (the created_at and last_used timestamps are
omitted: no query reads them back into any result). -/
structure LearnedRow where
  input_text : Str
  normalized_text : Str
  loinc_code : Str
  confidence : ℚ
  times_confirmed : Nat
deriving DecidableEq

/-- The read-only reference store (rows in table scan order). -/
structure Store where
  lis : List LisMapping
  loinc : List LoincConcept
  syn : List SynonymRow
  nci : List NciRow
deriving DecidableEq

/-- AutoResolver state: reference store, learned_mapping table and the
auto_learn flag. -/
structure ResolverState where
  store : Store
  learned : List LearnedRow
  auto_learn : Bool
deriving DecidableEq

/-- A Resolution dataclass value. -/
structure Resolution where
  input_text : Str
  loinc_code : Str
  loinc_name : Str
  confidence : ℚ
  method : Str
  matched_term : Str
deriving DecidableEq

/-- Substring containment: the SQL pattern LIKE percent-p-percent on
arguments free of LIKE metacharacters, and the Python in operator. -/
def subStr (p t : Str) : Bool :=
  (List.range (t.length + 1)).any (fun i => (t.drop i).take p.length = p)

/-- JOIN of a loinc_code against loinc_concept: first concept row with the
given code. -/
def lookupLoinc (s : Store) (code : Str) : Option LoincConcept :=
  s.loinc.find? (fun l => l.loinc_code = code)

/-- lis_mapping JOIN loinc_concept in scan order. -/
def joinLis (s : Store) : List (LisMapping × LoincConcept) :=
  s.lis.filterMap (fun m => (lookupLoinc s m.target_loinc).map (fun l => (m, l)))

/-- AutoResolver._try_exact_match: first joined lis_mapping row whose
source_code equals the raw input case-insensitively; confidence 1.0,
method exact. -/
def tryExactMatch (s : Store) (text : Str) : Option Resolution :=
  ((joinLis s).find? (fun ml => lowerS ml.1.source_code = lowerS text)).map
    (fun ml => ⟨text, ml.1.target_loinc, ml.2.long_common_name, 1, "exact".data,
      ml.1.source_code⟩)

/-- Lexicographic strictly-better test of the ORDER BY times_confirmed
DESC, confidence DESC used by _try_learned. -/
def lexBetter (p q : LearnedRow × LoincConcept) : Bool :=
  decide (q.1.times_confirmed < p.1.times_confirmed) ||
    (decide (q.1.times_confirmed = p.1.times_confirmed) &&
      decide (q.1.confidence < p.1.confidence))

/-- The single row selected by the _try_learned query: learned rows with
the given normalized text joined against loinc_concept, ordered by
times_confirmed descending then confidence descending, LIMIT 1 (ties
beyond that ordering are unspecified by SQL; the model keeps the first row
in scan order). -/
def pickLearned (st : ResolverState) (n : Str) : Option (LearnedRow × LoincConcept) :=
  (st.learned.filterMap (fun row =>
      if row.normalized_text = n then
        (lookupLoinc st.store row.loinc_code).map (fun l => (row, l))
      else none)).foldl
    (fun acc p => match acc with
      | none => some p
      | some q => if lexBetter p q then some p else some q) none

/-- AutoResolver._try_learned: the selected row reported with confidence
min(confidence + times_confirmed * 0.02, 0.99), method learned.  (The
source also refreshes the last_used timestamp, which no result ever
reads.) -/
def tryLearned (st : ResolverState) (n : Str) : Option Resolution :=
  (pickLearned st n).map (fun rl =>
    ⟨n, rl.1.loinc_code, rl.2.long_common_name,
      min (rl.1.confidence + (rl.1.times_confirmed : ℚ) * (0.02 : ℚ)) (0.99 : ℚ),
      "learned".data, n⟩)

/-- AutoResolver._try_fuzzy_match: for every joined lis_mapping row, the
maximum of the three similarities; keep rows at similarity at least 0.6
with confidence best_sim * 0.9, method fuzzy. -/
def tryFuzzy (s : Store) (normalized expanded : Str) : List Resolution :=
  (joinLis s).filterMap (fun ml =>
    let sourceNorm := normalize ml.1.source_code
    let sourceExp := expandAbbrev sourceNorm
    let sim1 := similarity normalized sourceNorm
    let sim2 := similarity expanded sourceExp
    let sim3 := similarity expanded (normalize ml.2.long_common_name)
    let bestSim := max sim1 (max sim2 sim3)
    if (0.6 : ℚ) ≤ bestSim then
      some ⟨normalized, ml.1.target_loinc, ml.2.long_common_name, bestSim * (0.9 : ℚ),
        "fuzzy".data, ml.1.source_code⟩
    else none)

/-- SELECT DISTINCT: keep the first occurrence of each projected tuple. -/
def dedupBy {α β : Type} [DecidableEq β] (l : List α) (f : α → β) : List α :=
  l.foldl (fun acc x => if acc.any (fun y => f y = f x) then acc else acc ++ [x]) []

/-- AutoResolver._try_synonym_search: DISTINCT joined synonym rows whose
synonym_text contains the expanded text case-insensitively, LIMIT 20;
keep rows at similarity at least 0.5 with confidence sim * 0.85, method
synonym. -/
def trySynonymSearch (s : Store) (expanded : Str) : List Resolution :=
  let joined := (s.syn.filterMap (fun sy =>
      (lookupLoinc s sy.loinc_code).map (fun l => (sy, l)))).filter
    (fun p => subStr (lowerS expanded) (lowerS p.1.synonym_text))
  let rows := (dedupBy joined
      (fun p => (p.1.loinc_code, p.1.synonym_text, p.2.long_common_name))).take 20
  rows.filterMap (fun p =>
    let sim := similarity expanded (lowerS p.1.synonym_text)
    if (0.5 : ℚ) ≤ sim then
      some ⟨expanded, p.1.loinc_code, p.2.long_common_name, sim * (0.85 : ℚ),
        "synonym".data, p.1.synonym_text⟩
    else none)

/-- AutoResolver._try_nci_synonyms: DISTINCT nci rows whose preferred name
or synonyms contain the expanded text, LIMIT 20; for each, the first
loinc_concept whose long name or component contains the preferred name;
confidence sim * 0.75, method synonym, no similarity cutoff. -/
def tryNci (s : Store) (expanded : Str) : List Resolution :=
  let rows0 := s.nci.filter (fun n =>
    subStr (lowerS expanded) (lowerS n.preferred_name) ||
      subStr (lowerS expanded) (lowerS n.synonyms))
  let rows := (dedupBy rows0 (fun n => (n.nci_code, n.preferred_name, n.synonyms))).take 20
  rows.filterMap (fun n =>
    ((s.loinc.filter (fun l =>
        subStr (lowerS n.preferred_name) (lowerS l.long_common_name) ||
          subStr (lowerS n.preferred_name) (lowerS l.component))).head?).map
      (fun l => ⟨expanded, l.loinc_code, l.long_common_name,
        similarity expanded (lowerS n.preferred_name) * (0.75 : ℚ),
        "synonym".data, n.preferred_name⟩))

/-- AutoResolver._try_component_search: loinc rows whose long name,
component or short name contains the expanded text, LIMIT 10; keep rows
whose maximal similarity over the three fields is at least 0.4 with
confidence sim * 0.8, method component. -/
def tryComponent (s : Store) (expanded : Str) : List Resolution :=
  let rows := (s.loinc.filter (fun l =>
    subStr (lowerS expanded) (lowerS l.long_common_name) ||
      subStr (lowerS expanded) (lowerS l.component) ||
        subStr (lowerS expanded) (lowerS l.short_name))).take 10
  rows.filterMap (fun l =>
    let sim := max (similarity expanded (lowerS l.long_common_name))
      (max (similarity expanded (lowerS l.component))
        (similarity expanded (lowerS l.short_name)))
    if (0.4 : ℚ) ≤ sim then
      some ⟨expanded, l.loinc_code, l.long_common_name, sim * (0.8 : ℚ),
        "component".data, l.long_common_name⟩
    else none)

/-- Does a learned row match the upsert key (normalized_text, loinc_code). -/
def keyMatch (n code : Str) (row : LearnedRow) : Bool :=
  decide (row.normalized_text = n) && decide (row.loinc_code = code)

/-- AutoResolver._learn: INSERT with times_confirmed defaulting to 1, ON
CONFLICT(normalized_text, loinc_code) increment times_confirmed only (the
stored confidence is not overwritten). -/
def learn (st : ResolverState) (original n code : Str) (conf : ℚ) : ResolverState :=
  if st.learned.any (keyMatch n code) then
    { st with learned := st.learned.map (fun row =>
        if keyMatch n code row then
          { row with times_confirmed := row.times_confirmed + 1 }
        else row) }
  else
    { st with learned := st.learned ++ [⟨original, n, code, conf, 1⟩] }

/-- The candidate pool of strategies 3 to 6 in the order the source
concatenates them: fuzzy, loinc synonyms, nci synonyms, component. -/
def candidatesList (st : ResolverState) (normalized expanded : Str) : List Resolution :=
  tryFuzzy st.store normalized expanded ++ trySynonymSearch st.store expanded ++
    tryNci st.store expanded ++ tryComponent st.store expanded

/-- Head of the stable sort by confidence descending: the first candidate
attaining the maximal confidence (Python list.sort is stable, so ties keep
first-encountered order and the head is the first maximal element). -/
def firstMax (c : Resolution) (rest : List Resolution) : Resolution :=
  rest.foldl (fun acc x => if acc.confidence < x.confidence then x else acc) c

/-- The tail of AutoResolver.resolve after the exact and learned
strategies: gather candidates, pick the best, gate on min_confidence,
auto-learn at confidence at least 0.7. -/
def resolveRest (st : ResolverState) (text normalized expanded : Str) (mc : ℚ) :
    Option Resolution × ResolverState :=
  match candidatesList st normalized expanded with
  | [] => (none, st)
  | c :: rest =>
    let best := firstMax c rest
    if mc ≤ best.confidence then
      (some best,
        if st.auto_learn ∧ (0.7 : ℚ) ≤ best.confidence then
          learn st text normalized best.loinc_code best.confidence
        else st)
    else (none, st)

/-- AutoResolver.resolve with a ghost trace of the strategy stages the
call reaches, in source order (exact; then learned; then the four pooled
strategies).  The trace is instrumentation only: the first two components
are exactly the Python return value and the resulting state. -/
def resolveT (st : ResolverState) (text : Str) (mc : ℚ) :
    Option Resolution × ResolverState × List Str :=
  let normalized := normalize text
  let expanded := expandAbbrev normalized
  match tryExactMatch st.store text with
  | some r => (some r, st, ["exact".data])
  | none =>
    match tryLearned st normalized with
    | some r =>
      if mc ≤ r.confidence then (some r, st, ["exact".data, "learned".data])
      else
        let p := resolveRest st text normalized expanded mc
        (p.1, p.2, ["exact".data, "learned".data, "fuzzy".data, "synonym".data,
          "nci".data, "component".data])
    | none =>
      let p := resolveRest st text normalized expanded mc
      (p.1, p.2, ["exact".data, "learned".data, "fuzzy".data, "synonym".data,
        "nci".data, "component".data])

/-- AutoResolver.resolve: result and updated state. -/
def resolve (st : ResolverState) (text : Str) (mc : ℚ) :
    Option Resolution × ResolverState :=
  ((resolveT st text mc).1, (resolveT st text mc).2.1)

/-- AutoResolver.confirm: upsert at key (normalize(text), code) with
confidence 0.95 and counter 1 on insert; on conflict increment the counter
and set confidence to min(confidence + 0.05, 0.99). -/
def confirm (st : ResolverState) (text code : Str) : ResolverState :=
  let n := normalize text
  if st.learned.any (keyMatch n code) then
    { st with learned := st.learned.map (fun row =>
        if keyMatch n code row then
          { row with
              times_confirmed := row.times_confirmed + 1,
              confidence := min (row.confidence + (0.05 : ℚ)) (0.99 : ℚ) }
        else row) }
  else
    { st with learned := st.learned ++ [⟨text, n, code, (0.95 : ℚ), 1⟩] }

/-- AutoResolver.reject: DELETE FROM learned_mapping WHERE
normalized_text = normalize(text) AND loinc_code = code. -/
def reject (st : ResolverState) (text code : Str) : ResolverState :=
  { st with learned := st.learned.filter (fun row => !(keyMatch (normalize text) code row)) }

/-- AutoResolver.batch_resolve: the dict comprehension evaluates resolve
on each text in order, threading Learning Store side effects; a duplicate
text overwrites its earlier dict entry, modelled by keeping the binding
list in evaluation order (the later binding is the one the dict keeps). -/
def batchResolve (st : ResolverState) (texts : List Str) (mc : ℚ) :
    List (Str × Option Resolution) × ResolverState :=
  texts.foldl (fun acc t =>
    let r := resolve acc.2 t mc
    (acc.1 ++ [(t, r.1)], r.2)) ([], st)

/-- The stored confidence of the learned row at a key, when present. -/
def storedConf (st : ResolverState) (n code : Str) : Option ℚ :=
  (st.learned.find? (keyMatch n code)).map (fun row => row.confidence)

/-- n successive confirm calls on the same (text, code) pair. -/
def confirmN (st : ResolverState) (text code : Str) : Nat → ResolverState
  | 0 => st
  | n + 1 => confirm (confirmN st text code n) text code

/-! ## Concrete reference stores used by witnesses and counterexamples -/

/-- Demo store: the spec example concept 6690-2 with SourceMapping WBC,
plus a single-letter potassium shorthand K. -/
def demoStore : Store :=
  { lis := [⟨"WBC".data, "6690-2".data⟩, ⟨"K".data, "2823-3".data⟩],
    loinc := [⟨"6690-2".data, "white blood cell count".data, [], []⟩,
      ⟨"2823-3".data, "potassium serum".data, [], []⟩],
    syn := [],
    nci := [] }

def demoState : ResolverState := ⟨demoStore, [], true⟩

/-- The exact-match Resolution for input wbc in the demo store. -/
def wbcRes : Resolution :=
  ⟨"wbc".data, "6690-2".data, "white blood cell count".data, 1, "exact".data, "WBC".data⟩

/-- The exact-match Resolution for raw input WBC in the demo store. -/
def wbcRawRes : Resolution :=
  ⟨"WBC".data, "6690-2".data, "white blood cell count".data, 1, "exact".data, "WBC".data⟩

/-- The exact-match Resolution for the one-character input k. -/
def kRes : Resolution :=
  ⟨"k".data, "2823-3".data, "potassium serum".data, 1, "exact".data, "K".data⟩

/-- Store for the tie-break counterexample: one lis_mapping at fuzzy
similarity 0.8 (confidence 0.72) and one concept at component similarity
0.9 (confidence 0.72). -/
def tieStore : Store :=
  { lis := [⟨"abcdefghzzz".data, "L1".data⟩],
    loinc := [⟨"L1".data, "qqqq".data, [], []⟩, ⟨"L2".data, "abcdefghizz".data, [], []⟩],
    syn := [],
    nci := [] }

def tieState : ResolverState := ⟨tieStore, [], false⟩

/-- The fuzzy candidate of the tie-break counterexample. -/
def tieFuzzyRes : Resolution :=
  ⟨"abcdefghi".data, "L1".data, "qqqq".data, (4/5 : ℚ) * (0.9 : ℚ), "fuzzy".data,
    "abcdefghzzz".data⟩

/-- The component candidate of the tie-break counterexample. -/
def tieCompRes : Resolution :=
  ⟨"abcdefghi".data, "L2".data, "abcdefghizz".data, (9/10 : ℚ) * (0.8 : ℚ),
    "component".data, "abcdefghizz".data⟩

/-- Store for the duplicate-batch counterexample: a single concept matched
by the component strategy at confidence 0.72, which auto-learns. -/
def dupStore : Store :=
  { lis := [], loinc := [⟨"L2".data, "abcdefghizz".data, [], []⟩], syn := [], nci := [] }

def dupState : ResolverState := ⟨dupStore, [], true⟩

/-- First resolution of the duplicated text: component, confidence 0.72. -/
def dupRes1 : Resolution :=
  ⟨"abcdefghi".data, "L2".data, "abcdefghizz".data, (9/10 : ℚ) * (0.8 : ℚ),
    "component".data, "abcdefghizz".data⟩

/-- Second resolution of the duplicated text: learned, confidence 0.74. -/
def dupRes2 : Resolution :=
  ⟨"abcdefghi".data, "L2".data, "abcdefghizz".data, (0.74 : ℚ), "learned".data,
    "abcdefghi".data⟩

/-- State after the first resolve of the duplicated text auto-learned. -/
def dupStateAfter : ResolverState :=
  ⟨dupStore, [⟨"abcdefghi".data, "abcdefghi".data, "L2".data, (9/10 : ℚ) * (0.8 : ℚ), 1⟩],
    true⟩

/-- Store and state with one learned mapping for the learned-path witness:
stored confidence 0.8, confirmed three times. -/
def learnedStore : Store :=
  { lis := [], loinc := [⟨"6690-2".data, "white blood cell count".data, [], []⟩],
    syn := [], nci := [] }

def learnedState : ResolverState :=
  ⟨learnedStore, [⟨"wbc".data, "wbc".data, "6690-2".data, (0.8 : ℚ), 3⟩], true⟩

def learnedRowW : LearnedRow := ⟨"wbc".data, "wbc".data, "6690-2".data, (0.8 : ℚ), 3⟩

def learnedConceptW : LoincConcept := ⟨"6690-2".data, "white blood cell count".data, [], []⟩

/-- State with learned mappings for two codes of the same normalized text,
for the rejection witness. -/
def twoStore : Store :=
  { lis := [], loinc := [⟨"A".data, "name a".data, [], []⟩, ⟨"B".data, "name b".data, [], []⟩],
    syn := [], nci := [] }

def twoState : ResolverState :=
  ⟨twoStore, [⟨"wbc".data, "wbc".data, "A".data, (0.9 : ℚ), 1⟩,
    ⟨"wbc".data, "wbc".data, "B".data, (0.95 : ℚ), 2⟩], true⟩

/-- The learned Resolution for code A surviving the rejection of code B. -/
def survivorRes : Resolution :=
  ⟨"wbc".data, "A".data, "name a".data, min ((0.9 : ℚ) + (1 : ℚ) * (0.02 : ℚ)) (0.99 : ℚ),
    "learned".data, "wbc".data⟩


/-! ## Definitions supporting the similarity analysis -/

/-- The slice x[lo:hi]. -/
def sliceL (x : Str) (lo hi : Nat) : Str := (x.take hi).drop lo

/-- Position j of x carries a non-popular (hence indexed in b2j)
character. -/
def rare (x : Str) (j : Nat) : Bool := !(popularChar x (getc x j))

/-- Length of the maximal run of rare positions of x ending at j. -/
def rrun (x : Str) : Nat → Nat
  | 0 => if rare x 0 then 1 else 0
  | j + 1 => if rare x (j + 1) then rrun x j + 1 else 0

/-- Well-formedness of a returned find_longest_match triple over the
ranges: within bounds, anchored at (alo, blo) when empty, and a genuine
character-by-character match. -/
def FlmInv (a b : Str) (alo ahi blo bhi i j k : Nat) : Prop :=
  alo ≤ i ∧ blo ≤ j ∧ (k ≠ 0 → i + k ≤ ahi ∧ j + k ≤ bhi) ∧
    (k = 0 → i = alo ∧ j = blo) ∧
    ∀ t, t < k → getc a (i + t) = getc b (j + t)

/-- Invariant of a j2len row read at outer step i (it was written at step
i - 1): every nonzero entry is a genuine common-suffix length within the
b range, bounded by the distances to alo and blo. -/
def DictPrev (a b : Str) (alo blo bhi : Nat) (i : Nat) (v : Nat → Nat) : Prop :=
  ∀ j, v j ≠ 0 → blo ≤ j ∧ j < bhi ∧ v j + blo ≤ j + 1 ∧ v j + alo ≤ i ∧
    ∀ t, t < v j → getc a (i - 1 - t) = getc b (j - t)

/-- Best-block invariant of the dynamic program. -/
def StGen (a b : Str) (alo ahi blo bhi : Nat) (st : FlmSt) : Prop :=
  alo ≤ st.besti ∧ blo ≤ st.bestj ∧
    (st.bestsize ≠ 0 → st.besti + st.bestsize ≤ ahi ∧ st.bestj + st.bestsize ≤ bhi ∧
      ∀ t, t < st.bestsize → getc a (st.besti + t) = getc b (st.bestj + t)) ∧
    (st.bestsize = 0 → st.besti = alo ∧ st.bestj = blo)

/-- Invariant of the j2len row entering outer step i0 when a and b are the
same string x: entries are bounded by the rare runs at the previous step
and at their own key, and the entry at the previous step index is exactly
that rare run. -/
def OldOK (x : Str) (i0 : Nat) (v : Nat → Nat) : Prop :=
  (∀ j, v j ≠ 0 → ∃ ip, i0 = ip + 1 ∧ v j ≤ rrun x ip ∧ v j ≤ rrun x j) ∧
    (∀ ip, i0 = ip + 1 → v ip = rrun x ip)

/-- Best-block invariant of the diagonal (a = b = x) dynamic program up to
outer step i0: the block lies on the diagonal and bestsize dominates every
rare run seen so far. -/
def StDiag (x : Str) (i0 : Nat) (st : FlmSt) : Prop :=
  st.besti = st.bestj ∧ ∀ j0, j0 < i0 → rrun x j0 ≤ st.bestsize

/-! ## General lemmas about the resolver -/

theorem tryExactMatch_shape {s : Store} {text : Str} {r : Resolution}
    (h : tryExactMatch s text = some r) :
    r.confidence = 1 ∧ r.method = "exact".data := by
  unfold tryExactMatch at h
  rcases Option.map_eq_some'.1 h with ⟨ml, _, rfl⟩
  exact ⟨rfl, rfl⟩

theorem resolveRest_some_conf {st : ResolverState} {text normalized expanded : Str}
    {mc : ℚ} {r : Resolution}
    (h : (resolveRest st text normalized expanded mc).1 = some r) :
    mc ≤ r.confidence := by
  unfold resolveRest at h
  rcases hc : candidatesList st normalized expanded with _ | ⟨c, rest⟩
  · rw [hc] at h; simp at h
  · rw [hc] at h
    by_cases hg : mc ≤ (firstMax c rest).confidence
    · simp only [if_pos hg, Option.some.injEq] at h
      rcases h with rfl
      exact hg
    · simp only [if_neg hg] at h
      simp at h

/-- C10: whenever resolve returns a Resolution and the caller threshold is
at most 1, the returned confidence is at least the threshold: the exact
path returns confidence 1, the learned path is gated on the threshold, and
the ranked candidate pool is gated on the threshold before returning. -/
theorem resolve_respects_min_confidence (st : ResolverState) (text : Str) (mc : ℚ)
    (hmc : mc ≤ 1) (r : Resolution) (st2 : ResolverState) (tr : List Str)
    (h : resolveT st text mc = (some r, st2, tr)) : mc ≤ r.confidence := by
  unfold resolveT at h
  rcases hex : tryExactMatch st.store text with _ | re
  · rcases hl : tryLearned st (normalize text) with _ | rl
    · simp only [hex, hl, Prod.mk.injEq] at h
      exact resolveRest_some_conf h.1
    · by_cases hg : mc ≤ rl.confidence
      · simp only [hex, hl, if_pos hg, Prod.mk.injEq, Option.some.injEq] at h
        rcases h with ⟨rfl, _⟩
        exact hg
      · simp only [hex, hl, if_neg hg, Prod.mk.injEq] at h
        exact resolveRest_some_conf h.1
  · simp only [hex, Prod.mk.injEq, Option.some.injEq] at h
    rcases h with ⟨rfl, _⟩
    rw [(tryExactMatch_shape hex).1]
    exact hmc

/-- C10 witness at a concrete store, input and threshold. -/
theorem resolve_respects_min_confidence_witness : (1 : ℚ) / 2 ≤ wbcRes.confidence :=
  resolve_respects_min_confidence demoState "wbc".data (1/2)
    (by norm_num) wbcRes demoState ["exact".data] (by with_unfolding_all decide)

/-- C1: an exact match on the raw input is terminal: resolve returns that
Resolution immediately with confidence exactly 1 and method exact, the
state is untouched, and the ghost trace records that only the exact
strategy stage ran. -/
theorem exact_terminal (st : ResolverState) (text : Str) (mc : ℚ) (r : Resolution)
    (h : tryExactMatch st.store text = some r) :
    resolveT st text mc = (some r, st, ["exact".data]) ∧
      r.confidence = 1 ∧ r.method = "exact".data := by
  refine ⟨?_, tryExactMatch_shape h⟩
  unfold resolveT
  rw [h]

/-- C1 witness: the spec example, resolving wbc against the known WBC
SourceMapping. -/
theorem exact_terminal_witness :
    resolveT demoState "wbc".data (1/2) = (some wbcRes, demoState, ["exact".data]) ∧
      wbcRes.confidence = 1 ∧ wbcRes.method = "exact".data :=
  exact_terminal demoState "wbc".data (1/2) wbcRes (by with_unfolding_all decide)

/-- C2: AutoResolver.resolve has no guard for empty or short input.  The
one-character input k (trimmed length 1 < 2) is not rejected: the full
cascade runs (the trace is nonempty) and the exact strategy even returns a
Resolution, where the claim requires an immediate no-match with no
strategy invoked. -/
theorem short_input_runs_cascade :
    ("k".data).length < 2 ∧
      resolveT demoState "k".data (1/2) = (some kRes, demoState, ["exact".data]) ∧
      ((resolveT demoState "k".data (1/2)).2.2 ≠ ([] : List Str)) := by
  with_unfolding_all decide

/-- C7 amended, positive part: for a text with an exact SourceMapping
match, resolve leaves the state unchanged, so batch_resolve of a
duplicated such text yields identical Resolution values for both
occurrences. -/
theorem batch_duplicate_exact (st : ResolverState) (text : Str) (mc : ℚ) (r : Resolution)
    (h : tryExactMatch st.store text = some r) :
    resolve st text mc = (some r, st) ∧
      batchResolve st [text, text] mc = ([(text, some r), (text, some r)], st) := by
  have h1 : resolveT st text mc = (some r, st, ["exact".data]) := by
    unfold resolveT; rw [h]
  have h2 : resolve st text mc = (some r, st) := by
    unfold resolve; rw [h1]
  refine ⟨h2, ?_⟩
  unfold batchResolve
  simp [h2]

/-- C7 witness: batch_resolve of the duplicated raw input WBC at threshold
0.5 returns the identical exact Resolution for both occurrences. -/
theorem batch_duplicate_exact_witness :
    resolve demoState "WBC".data (1/2) = (some wbcRawRes, demoState) ∧
      batchResolve demoState ["WBC".data, "WBC".data] (1/2) =
        ([("WBC".data, some wbcRawRes), ("WBC".data, some wbcRawRes)], demoState) :=
  batch_duplicate_exact demoState "WBC".data (1/2) wbcRawRes (by with_unfolding_all decide)

/-- C7 counterexample: resolve is not idempotent under duplicate input in
general.  With auto-learn on, the first resolve of the duplicated text
returns a component candidate at confidence 0.72 and learns it; the second
resolve of the same text takes the learned path at confidence 0.74, so the
two resolve applications return different Resolutions (the dict keeps the
second). -/
theorem batch_duplicate_differs :
    batchResolve dupState ["abcdefghi".data, "abcdefghi".data] (1/2) =
      ([("abcdefghi".data, some dupRes1), ("abcdefghi".data, some dupRes2)], dupStateAfter) ∧
      dupRes1 ≠ dupRes2 := by
  with_unfolding_all decide

/-- C8 counterexample: confirming a (text, code) pair that was never
learned is not a no-op: it inserts a fresh learned record, changing the
Learning Store state. -/
theorem confirm_not_noop :
    storedConf (⟨demoStore, [], true⟩ : ResolverState) (normalize "wbc".data)
        "6690-2".data = none ∧
      confirm (⟨demoStore, [], true⟩ : ResolverState) "wbc".data "6690-2".data ≠
        (⟨demoStore, [], true⟩ : ResolverState) := by
  with_unfolding_all decide

/-- C8 amended: on a (text, code) pair with no learned record, reject is a
no-op that leaves the Learning Store unchanged and raises no error, while
confirm raises no error but inserts a fresh learned record with confidence
0.95 and counter 1. -/
theorem unlearned_feedback (st : ResolverState) (text code : Str)
    (h : storedConf st (normalize text) code = none) :
    reject st text code = st ∧
      confirm st text code =
        { st with learned := st.learned ++ [⟨text, normalize text, code, (0.95 : ℚ), 1⟩] } := by
  have hall : ∀ row ∈ st.learned, keyMatch (normalize text) code row = false := by
    intro row hrow
    have hfind : st.learned.find? (keyMatch (normalize text) code) = none := by
      unfold storedConf at h
      rcases hf : st.learned.find? (keyMatch (normalize text) code) with _ | v
      · rfl
      · rw [hf] at h; simp at h
    exact Bool.eq_false_iff.2 (fun hc => (List.find?_eq_none.1 hfind row hrow) hc)
  constructor
  · unfold reject
    have : st.learned.filter (fun row => !(keyMatch (normalize text) code row)) = st.learned :=
      List.filter_eq_self.2 (fun row hrow => by rw [hall row hrow]; rfl)
    rw [this]
  · unfold confirm
    have hany : st.learned.any (keyMatch (normalize text) code) = false :=
      List.any_eq_false.2 (fun row hrow => by rw [hall row hrow]; exact Bool.false_ne_true)
    simp [hany]

theorem find?_map_keyMatch (n code : Str) (f : LearnedRow → LearnedRow)
    (hf : ∀ row, (f row).normalized_text = row.normalized_text ∧
      (f row).loinc_code = row.loinc_code) :
    ∀ l : List LearnedRow,
      (l.map f).find? (keyMatch n code) = (l.find? (keyMatch n code)).map f := by
  intro l
  induction l with
  | nil => rfl
  | cons x t ih =>
    have hx : keyMatch n code (f x) = keyMatch n code x := by
      unfold keyMatch; rw [(hf x).1, (hf x).2]
    cases hk : keyMatch n code x <;>
      simp [List.find?, hx, hk, ih]

theorem find?_append_of_none {α : Type} {p : α → Bool} {l1 : List α}
    (h : l1.find? p = none) (l2 : List α) : (l1 ++ l2).find? p = l2.find? p := by
  induction l1 with
  | nil => rfl
  | cons x t ih =>
    rcases hx : p x with _ | _
    · have ht : t.find? p = none := by
        simp only [List.find?, hx] at h
        exact h
      simp only [List.cons_append, List.find?, hx]
      exact ih ht
    · exfalso
      simp only [List.find?, hx] at h
      exact Option.some_ne_none x h

/-- Effect of one confirm call on the stored confidence at its key:
insert at 0.95 when absent, otherwise min(old + 0.05, 0.99). -/
theorem storedConf_confirm (st : ResolverState) (text code : Str) :
    storedConf (confirm st text code) (normalize text) code =
      some (match storedConf st (normalize text) code with
            | none => (0.95 : ℚ)
            | some q => min (q + (0.05 : ℚ)) (0.99 : ℚ)) := by
  unfold confirm storedConf
  by_cases hany : st.learned.any (keyMatch (normalize text) code)
  · simp only [hany, if_true]
    rw [find?_map_keyMatch]
    · rcases hfind : st.learned.find? (keyMatch (normalize text) code) with _ | row0
      · rcases List.any_eq_true.1 hany with ⟨row, hrow, hkm⟩
        exact absurd hkm (List.find?_eq_none.1 hfind row hrow)
      · have hk0 : keyMatch (normalize text) code row0 = true := List.find?_some hfind
        simp [hk0]
    · intro row
      by_cases hk : keyMatch (normalize text) code row <;> simp [hk]
  · have hany2 : st.learned.any (keyMatch (normalize text) code) = false :=
      Bool.eq_false_iff.2 hany
    simp only [hany2, Bool.false_eq_true, if_false]
    have hnone : st.learned.find? (keyMatch (normalize text) code) = none := by
      rcases hf : st.learned.find? (keyMatch (normalize text) code) with _ | v
      · rfl
      · have : keyMatch (normalize text) code v = true := List.find?_some hf
        have hv : v ∈ st.learned := List.mem_of_find?_eq_some hf
        rcases List.any_eq_false.1 hany2 v hv (by rw [this])
    rw [find?_append_of_none hnone, hnone]
    simp [List.find?, keyMatch]

/-- Stored confidence after m+1 successive confirms starting from an
absent key: 0.95 after the first, 0.99 from the second on. -/
theorem storedConf_confirmN (st : ResolverState) (text code : Str)
    (h : storedConf st (normalize text) code = none) :
    ∀ m : Nat, storedConf (confirmN st text code (m + 1)) (normalize text) code =
      some (if m = 0 then (0.95 : ℚ) else (0.99 : ℚ)) := by
  intro m
  induction m with
  | zero =>
    show storedConf (confirm (confirmN st text code 0) text code) (normalize text) code = _
    rw [storedConf_confirm]
    show some (match storedConf st (normalize text) code with
      | none => (0.95 : ℚ) | some q => min (q + (0.05 : ℚ)) (0.99 : ℚ)) = _
    rw [h]
    simp
  | succ m ih =>
    show storedConf (confirm (confirmN st text code (m + 1)) text code) (normalize text) code = _
    rw [storedConf_confirm, ih]
    have hmin : min ((if m = 0 then (0.95 : ℚ) else (0.99 : ℚ)) + (0.05 : ℚ)) (0.99 : ℚ) =
        (0.99 : ℚ) := by
      by_cases hm : m = 0 <;> simp [hm, min_def] <;> norm_num
    simp only [hmin]
    simp

/-- C5: starting from a pair with no learned record, the first confirm
stores confidence 0.95; afterwards every further confirm updates the
stored confidence to min(previous + 0.05, 0.99), the stored confidence is
non-decreasing along the sequence of confirms, and it never exceeds
0.99. -/
theorem confirm_monotone_capped (st : ResolverState) (text code : Str)
    (h : storedConf st (normalize text) code = none) :
    storedConf (confirmN st text code 1) (normalize text) code = some (0.95 : ℚ) ∧
      (∀ m : Nat, 1 ≤ m → ∃ q q2 : ℚ,
        storedConf (confirmN st text code m) (normalize text) code = some q ∧
        storedConf (confirmN st text code (m + 1)) (normalize text) code = some q2 ∧
        q2 = min (q + (0.05 : ℚ)) (0.99 : ℚ) ∧ q ≤ q2 ∧ q ≤ (0.99 : ℚ) ∧ q2 ≤ (0.99 : ℚ)) := by
  constructor
  · have := storedConf_confirmN st text code h 0
    simpa using this
  · intro m hm
    rcases Nat.exists_eq_add_of_le hm with ⟨m0, rfl⟩
    refine ⟨if m0 = 0 then (0.95 : ℚ) else (0.99 : ℚ), (0.99 : ℚ), ?_, ?_, ?_, ?_, ?_, ?_⟩
    · have := storedConf_confirmN st text code h m0
      simpa [Nat.add_comm 1 m0] using this
    · have := storedConf_confirmN st text code h (m0 + 1)
      simpa [Nat.add_comm 1 m0] using this
    · by_cases hm0 : m0 = 0 <;> simp [hm0, min_def] <;> norm_num
    · by_cases hm0 : m0 = 0 <;> simp [hm0] <;> norm_num
    · by_cases hm0 : m0 = 0 <;> simp [hm0] <;> norm_num
    · norm_num

/-- C5 witness: a concrete pair confirmed repeatedly from an empty
Learning Store. -/
theorem confirm_monotone_capped_witness :
    storedConf (confirmN (⟨demoStore, [], true⟩ : ResolverState) "wbc".data "6690-2".data 1)
        (normalize "wbc".data) "6690-2".data = some (0.95 : ℚ) ∧
      (∃ q q2 : ℚ,
        storedConf (confirmN (⟨demoStore, [], true⟩ : ResolverState) "wbc".data "6690-2".data 3)
          (normalize "wbc".data) "6690-2".data = some q ∧
        storedConf (confirmN (⟨demoStore, [], true⟩ : ResolverState) "wbc".data "6690-2".data 4)
          (normalize "wbc".data) "6690-2".data = some q2 ∧
        q2 = min (q + (0.05 : ℚ)) (0.99 : ℚ) ∧ q ≤ q2 ∧ q ≤ (0.99 : ℚ) ∧ q2 ≤ (0.99 : ℚ)) :=
  ⟨(confirm_monotone_capped (⟨demoStore, [], true⟩ : ResolverState) "wbc".data "6690-2".data
      (by with_unfolding_all decide)).1,
    (confirm_monotone_capped (⟨demoStore, [], true⟩ : ResolverState) "wbc".data "6690-2".data
      (by with_unfolding_all decide)).2 3 (by norm_num)⟩

/-- C3: when the exact strategy misses and a learned row is selected for
the normalized input, the Learned Match strategy reports confidence
exactly min(stored confidence + 0.02 * times_confirmed, 0.99), and resolve
returns that learned Resolution immediately when that confidence reaches
the caller threshold, while otherwise the cascade proceeds to the
non-terminal candidate-pool strategies. -/
theorem learned_formula_and_gate (st : ResolverState) (text : Str) (mc : ℚ)
    (row : LearnedRow) (l : LoincConcept)
    (hex : tryExactMatch st.store text = none)
    (hp : pickLearned st (normalize text) = some (row, l)) :
    tryLearned st (normalize text) = some ⟨normalize text, row.loinc_code,
        l.long_common_name,
        min (row.confidence + (row.times_confirmed : ℚ) * (0.02 : ℚ)) (0.99 : ℚ),
        "learned".data, normalize text⟩ ∧
      (mc ≤ min (row.confidence + (row.times_confirmed : ℚ) * (0.02 : ℚ)) (0.99 : ℚ) →
        resolveT st text mc = (some ⟨normalize text, row.loinc_code, l.long_common_name,
          min (row.confidence + (row.times_confirmed : ℚ) * (0.02 : ℚ)) (0.99 : ℚ),
          "learned".data, normalize text⟩, st, ["exact".data, "learned".data])) ∧
      (¬ mc ≤ min (row.confidence + (row.times_confirmed : ℚ) * (0.02 : ℚ)) (0.99 : ℚ) →
        (resolveT st text mc).1 =
            (resolveRest st text (normalize text) (expandAbbrev (normalize text)) mc).1 ∧
          (resolveT st text mc).2.1 =
            (resolveRest st text (normalize text) (expandAbbrev (normalize text)) mc).2) := by
  have hl : tryLearned st (normalize text) = some ⟨normalize text, row.loinc_code,
      l.long_common_name,
      min (row.confidence + (row.times_confirmed : ℚ) * (0.02 : ℚ)) (0.99 : ℚ),
      "learned".data, normalize text⟩ := by
    unfold tryLearned
    rw [hp]
    rfl
  refine ⟨hl, ?_, ?_⟩
  · intro hg
    unfold resolveT
    simp only [hex, hl, if_pos hg]
  · intro hg
    constructor
    · unfold resolveT
      simp [hex, hl, hg]
    · unfold resolveT
      simp [hex, hl, hg]

/-- C3 witness: a stored mapping with confidence 0.8 confirmed 3 times is
reported at confidence 0.86 and is terminal at threshold 0.5. -/
theorem learned_formula_and_gate_witness :
    tryLearned learnedState (normalize "wbc".data) = some ⟨normalize "wbc".data,
        learnedRowW.loinc_code, learnedConceptW.long_common_name,
        min (learnedRowW.confidence + (learnedRowW.times_confirmed : ℚ) * (0.02 : ℚ))
          (0.99 : ℚ), "learned".data, normalize "wbc".data⟩ ∧
      ((1 : ℚ)/2 ≤ min (learnedRowW.confidence +
          (learnedRowW.times_confirmed : ℚ) * (0.02 : ℚ)) (0.99 : ℚ) →
        resolveT learnedState "wbc".data ((1 : ℚ)/2) = (some ⟨normalize "wbc".data,
          learnedRowW.loinc_code, learnedConceptW.long_common_name,
          min (learnedRowW.confidence + (learnedRowW.times_confirmed : ℚ) * (0.02 : ℚ))
            (0.99 : ℚ), "learned".data, normalize "wbc".data⟩, learnedState,
          ["exact".data, "learned".data])) ∧
      (¬ (1 : ℚ)/2 ≤ min (learnedRowW.confidence +
          (learnedRowW.times_confirmed : ℚ) * (0.02 : ℚ)) (0.99 : ℚ) →
        (resolveT learnedState "wbc".data ((1 : ℚ)/2)).1 =
            (resolveRest learnedState "wbc".data (normalize "wbc".data)
              (expandAbbrev (normalize "wbc".data)) ((1 : ℚ)/2)).1 ∧
          (resolveT learnedState "wbc".data ((1 : ℚ)/2)).2.1 =
            (resolveRest learnedState "wbc".data (normalize "wbc".data)
              (expandAbbrev (normalize "wbc".data)) ((1 : ℚ)/2)).2) :=
  learned_formula_and_gate learnedState "wbc".data ((1 : ℚ)/2) learnedRowW learnedConceptW
    (by with_unfolding_all decide) (by with_unfolding_all decide)

/-- The foldl of firstMax returns the first element of the list attaining
the maximal confidence. -/
theorem firstMax_spec : ∀ (rest : List Resolution) (c : Resolution),
    ∃ l1 l2, c :: rest = l1 ++ firstMax c rest :: l2 ∧
      (∀ x ∈ l1, x.confidence < (firstMax c rest).confidence) ∧
      (∀ x ∈ c :: rest, x.confidence ≤ (firstMax c rest).confidence) := by
  intro rest
  induction rest with
  | nil =>
    intro c
    exact ⟨[], [], rfl, by simp, by simp [firstMax]⟩
  | cons x t ih =>
    intro c
    have hfm : firstMax c (x :: t) = firstMax (if c.confidence < x.confidence then x else c) t :=
      rfl
    by_cases hcx : c.confidence < x.confidence
    · obtain ⟨l1, l2, heq, hlt, hle⟩ := ih x
      rw [hfm, if_pos hcx]
      refine ⟨c :: l1, l2, ?_, ?_, ?_⟩
      · simpa using congrArg (List.cons c) heq
      · intro y hy
        rcases List.mem_cons.1 hy with rfl | hy2
        · exact lt_of_lt_of_le hcx (hle x (List.mem_cons_self x t))
        · exact hlt y hy2
      · intro y hy
        rcases List.mem_cons.1 hy with rfl | hy2
        · exact le_of_lt (lt_of_lt_of_le hcx (hle x (List.mem_cons_self x t)))
        · exact hle y hy2
    · obtain ⟨l1, l2, heq, hlt, hle⟩ := ih c
      rw [hfm, if_neg hcx]
      rcases l1 with _ | ⟨z, l1t⟩
      · simp only [List.nil_append] at heq
        obtain ⟨hc, ht⟩ := List.cons.inj heq
        refine ⟨[], x :: l2, ?_, by simp, ?_⟩
        · simp only [List.nil_append]
          rw [← hc, ← ht]
        · intro y hy
          rcases List.mem_cons.1 hy with rfl | hy2
          · exact hle y (List.mem_cons_self y t)
          · rcases List.mem_cons.1 hy2 with rfl | hy3
            · exact le_trans (le_of_not_lt hcx) (hle c (List.mem_cons_self c t))
            · exact hle y (List.mem_cons_of_mem c hy3)
      · simp only [List.cons_append] at heq
        obtain ⟨hz, ht⟩ := List.cons.inj heq
        have hcfm : c.confidence < (firstMax c t).confidence := by
          have hzc := hlt z (List.mem_cons_self z l1t)
          rwa [← hz] at hzc
        refine ⟨c :: x :: l1t, l2, ?_, ?_, ?_⟩
        · simp only [List.cons_append]
          rw [← ht]
        · intro y hy
          rcases List.mem_cons.1 hy with rfl | hy2
          · exact hcfm
          · rcases List.mem_cons.1 hy2 with rfl | hy3
            · exact lt_of_le_of_lt (le_of_not_lt hcx) hcfm
            · exact hlt y (List.mem_cons_of_mem z hy3)
        · intro y hy
          rcases List.mem_cons.1 hy with rfl | hy2
          · exact hle y (List.mem_cons_self y t)
          · rcases List.mem_cons.1 hy2 with rfl | hy3
            · exact le_trans (le_of_not_lt hcx) (hle c (List.mem_cons_self c t))
            · exact hle y (List.mem_cons_of_mem c hy3)

/-- C4 amended: when the candidate pool decides the outcome, resolve
returns the first candidate of maximal confidence in the pool order the
source assembles: fuzzy candidates first, then direct synonym matches,
then thesaurus synonym matches, then component matches, each in
first-encountered order.  Every earlier pool element has strictly smaller
confidence and no pool element beats the returned one. -/
theorem pool_pick_first_encountered (st : ResolverState) (text normalized expanded : Str)
    (mc : ℚ) (r : Resolution)
    (h : (resolveRest st text normalized expanded mc).1 = some r) :
    ∃ l1 l2, candidatesList st normalized expanded = l1 ++ r :: l2 ∧
      (∀ x ∈ l1, x.confidence < r.confidence) ∧
      (∀ x ∈ candidatesList st normalized expanded, x.confidence ≤ r.confidence) := by
  unfold resolveRest at h
  rcases hc : candidatesList st normalized expanded with _ | ⟨c, rest⟩
  · rw [hc] at h
    simp at h
  · rw [hc] at h
    by_cases hg : mc ≤ (firstMax c rest).confidence
    · simp only [if_pos hg, Option.some.injEq] at h
      rcases h with rfl
      exact firstMax_spec rest c
    · simp only [if_neg hg] at h
      simp at h

/-- C4 amended witness: a concrete pool pick through the first-maximal
rule. -/
theorem pool_pick_first_encountered_witness :
    ∃ l1 l2, candidatesList tieState "abcdefghi".data "abcdefghi".data =
        l1 ++ tieFuzzyRes :: l2 ∧
      (∀ x ∈ l1, x.confidence < tieFuzzyRes.confidence) ∧
      (∀ x ∈ candidatesList tieState "abcdefghi".data "abcdefghi".data,
        x.confidence ≤ tieFuzzyRes.confidence) :=
  pool_pick_first_encountered tieState "abcdefghi".data "abcdefghi".data "abcdefghi".data
    (1/2) tieFuzzyRes (by with_unfolding_all decide)

/-- C4 counterexample: a tie between a fuzzy candidate and a component
candidate at confidence 0.72 is won by the fuzzy candidate, which is
encountered first in the pool, not by strategy priority synonym over
component over fuzzy as the claim states. -/
theorem tie_break_prefers_fuzzy :
    resolve tieState "abcdefghi".data (1/2) = (some tieFuzzyRes, tieState) ∧
      tieFuzzyRes.method = "fuzzy".data ∧ tieCompRes.method = "component".data ∧
      candidatesList tieState (normalize "abcdefghi".data)
        (expandAbbrev (normalize "abcdefghi".data)) = [tieFuzzyRes, tieCompRes] ∧
      tieCompRes.confidence = tieFuzzyRes.confidence ∧ tieFuzzyRes ≠ tieCompRes := by
  with_unfolding_all decide

/-- Case analysis on a successful resolveT call: the result came from the
exact strategy, from the learned strategy above the threshold, or from the
candidate pool. -/
theorem resolveT_cases (st : ResolverState) (text : Str) (mc : ℚ) (r : Resolution)
    (st2 : ResolverState) (tr : List Str)
    (h : resolveT st text mc = (some r, st2, tr)) :
    tryExactMatch st.store text = some r ∨
      (tryExactMatch st.store text = none ∧ tryLearned st (normalize text) = some r ∧
        mc ≤ r.confidence) ∨
      (tryExactMatch st.store text = none ∧
        (resolveRest st text (normalize text) (expandAbbrev (normalize text)) mc).1 = some r) := by
  unfold resolveT at h
  rcases hex : tryExactMatch st.store text with _ | re
  · rcases hl : tryLearned st (normalize text) with _ | rl
    · simp only [hex, hl, Prod.mk.injEq] at h
      exact Or.inr (Or.inr ⟨rfl, h.1⟩)
    · by_cases hg : mc ≤ rl.confidence
      · simp only [hex, hl, if_pos hg, Prod.mk.injEq, Option.some.injEq] at h
        rcases h with ⟨rfl, _⟩
        exact Or.inr (Or.inl ⟨rfl, rfl, hg⟩)
      · simp only [hex, hl, if_neg hg, Prod.mk.injEq] at h
        exact Or.inr (Or.inr ⟨rfl, h.1⟩)
  · simp only [hex, Prod.mk.injEq, Option.some.injEq] at h
    rcases h with ⟨rfl, _⟩
    exact Or.inl rfl

theorem pickLearned_mem {st : ResolverState} {n : Str} {row : LearnedRow}
    {l : LoincConcept} (h : pickLearned st n = some (row, l)) :
    row ∈ st.learned ∧ row.normalized_text = n := by
  unfold pickLearned at h
  have key : ∀ (M : List (LearnedRow × LoincConcept))
      (acc : Option (LearnedRow × LoincConcept)),
      M.foldl (fun acc p => match acc with
        | none => some p
        | some q => if lexBetter p q then some p else some q) acc = some (row, l) →
      (row, l) ∈ M ∨ acc = some (row, l) := by
    intro M
    induction M with
    | nil => intro acc h2; exact Or.inr h2
    | cons x t ih =>
      intro acc h2
      rcases ih _ h2 with hmem | hacc
      · exact Or.inl (List.mem_cons_of_mem _ hmem)
      · rcases acc with _ | q
        · simp only [Option.some.injEq] at hacc
          exact Or.inl (hacc ▸ List.mem_cons_self x t)
        · by_cases hb : lexBetter x q
          · simp only [hb, if_true, Option.some.injEq] at hacc
            exact Or.inl (hacc ▸ List.mem_cons_self x t)
          · simp only [hb, Bool.false_eq_true, if_false] at hacc
            exact Or.inr hacc
  rcases key _ none h with hmem | habs
  · rcases List.mem_filterMap.1 hmem with ⟨a, ha, hfa⟩
    by_cases hcond : a.normalized_text = n
    · rw [if_pos hcond] at hfa
      rcases Option.map_eq_some'.1 hfa with ⟨l0, _, hshape⟩
      have : a = row := congrArg Prod.fst hshape
      exact ⟨this ▸ ha, this ▸ hcond⟩
    · rw [if_neg hcond] at hfa
      exact absurd hfa (Option.noConfusion)
  · exact absurd habs (Option.noConfusion)

theorem mem_tryFuzzy_method {s : Store} {n e : Str} {c : Resolution}
    (h : c ∈ tryFuzzy s n e) : c.method = "fuzzy".data := by
  unfold tryFuzzy at h
  rcases List.mem_filterMap.1 h with ⟨ml, _, hml⟩
  simp only [Option.ite_none_right_eq_some, Option.some.injEq] at hml
  rw [← hml.2]

theorem mem_trySynonymSearch_method {s : Store} {e : Str} {c : Resolution}
    (h : c ∈ trySynonymSearch s e) : c.method = "synonym".data := by
  unfold trySynonymSearch at h
  rcases List.mem_filterMap.1 h with ⟨p, _, hp⟩
  simp only [Option.ite_none_right_eq_some, Option.some.injEq] at hp
  rw [← hp.2]

theorem mem_tryNci_method {s : Store} {e : Str} {c : Resolution}
    (h : c ∈ tryNci s e) : c.method = "synonym".data := by
  unfold tryNci at h
  rcases List.mem_filterMap.1 h with ⟨p, _, hp⟩
  rcases Option.map_eq_some'.1 hp with ⟨l0, _, hshape⟩
  rw [← hshape]

theorem mem_tryComponent_method {s : Store} {e : Str} {c : Resolution}
    (h : c ∈ tryComponent s e) : c.method = "component".data := by
  unfold tryComponent at h
  rcases List.mem_filterMap.1 h with ⟨l0, _, hl0⟩
  simp only [Option.ite_none_right_eq_some, Option.some.injEq] at hl0
  rw [← hl0.2]

theorem candidates_not_learned {st : ResolverState} {n e : Str} {c : Resolution}
    (h : c ∈ candidatesList st n e) : c.method ≠ "learned".data := by
  unfold candidatesList at h
  rcases List.mem_append.1 h with h1 | h4
  · rcases List.mem_append.1 h1 with h2 | h3
    · rcases List.mem_append.1 h2 with hf | hs
      · rw [mem_tryFuzzy_method hf]; with_unfolding_all decide
      · rw [mem_trySynonymSearch_method hs]; with_unfolding_all decide
    · rw [mem_tryNci_method h3]; with_unfolding_all decide
  · rw [mem_tryComponent_method h4]; with_unfolding_all decide

/-- C6: reject deletes every learned record at (normalized text, code), so
a subsequent resolve of the same text never reports method learned with
the rejected code. -/
theorem reject_purges (st : ResolverState) (text code : Str) :
    (∀ row ∈ (reject st text code).learned,
      ¬(row.normalized_text = normalize text ∧ row.loinc_code = code)) ∧
    (∀ (mc : ℚ) (r : Resolution) (st2 : ResolverState) (tr : List Str),
      resolveT (reject st text code) text mc = (some r, st2, tr) →
      r.method = "learned".data → r.loinc_code ≠ code) := by
  have hpurged : ∀ row ∈ (reject st text code).learned,
      ¬(row.normalized_text = normalize text ∧ row.loinc_code = code) := by
    intro row hrow hcon
    unfold reject at hrow
    have hmem := List.mem_filter.1 hrow
    have : keyMatch (normalize text) code row = true := by
      unfold keyMatch
      rw [decide_eq_true hcon.1, decide_eq_true hcon.2]
      rfl
    rw [this] at hmem
    exact absurd hmem.2 (by simp)
  refine ⟨hpurged, ?_⟩
  intro mc r st2 tr h hmeth
  rcases resolveT_cases (reject st text code) text mc r st2 tr h with
    hexact | ⟨_, hl, _⟩ | ⟨_, hrest⟩
  · rw [(tryExactMatch_shape hexact).2] at hmeth
    exact absurd hmeth (by with_unfolding_all decide)
  · unfold tryLearned at hl
    rcases Option.map_eq_some'.1 hl with ⟨⟨row, lc⟩, hp, hshape⟩
    have hrowmem := pickLearned_mem hp
    have hcode : r.loinc_code = row.loinc_code := by rw [← hshape]
    intro hcontra
    exact hpurged row hrowmem.1 ⟨hrowmem.2, by rw [← hcode, hcontra]⟩
  · obtain ⟨l1, l2, hceq, _, _⟩ := pool_pick_first_encountered _ _ _ _ _ _ hrest
    have hmem : r ∈ candidatesList (reject st text code) (normalize text)
        (expandAbbrev (normalize text)) := by
      rw [hceq]
      exact List.mem_append_right l1 (List.mem_cons_self r l2)
    exact absurd hmeth (candidates_not_learned hmem)

/-- C6 witness: after rejecting (wbc, B), code B is purged and the
subsequent learned resolution is for the surviving code A, not B. -/
theorem reject_purges_witness :
    survivorRes.loinc_code ≠ "B".data ∧
      (∀ row ∈ (reject twoState "wbc".data "B".data).learned,
        ¬(row.normalized_text = normalize "wbc".data ∧ row.loinc_code = "B".data)) :=
  ⟨(reject_purges twoState "wbc".data "B".data).2 (1/2) survivorRes
      (reject twoState "wbc".data "B".data) ["exact".data, "learned".data]
      (by with_unfolding_all decide) (by with_unfolding_all decide),
    (reject_purges twoState "wbc".data "B".data).1⟩

/-! ## Correctness of the find_longest_match embedding -/

theorem mem_js {b : Str} {c : Char} {blo bhi j : Nat}
    (h : j ∈ (b2j b c).filter (fun j => blo ≤ j ∧ j < bhi)) :
    blo ≤ j ∧ j < bhi ∧ j < b.length ∧ getc b j = c := by
  have h2 := List.mem_filter.1 h
  have hcond : blo ≤ j ∧ j < bhi := by simpa using h2.2
  have hb : j ∈ b2j b c := h2.1
  unfold b2j at hb
  by_cases hp : popularChar b c
  · rw [if_pos hp] at hb
    cases hb
  · rw [if_neg hp] at hb
    unfold positions at hb
    have h3 := List.mem_filter.1 hb
    have hlen : j < b.length := List.mem_range.1 h3.1
    have hc : getc b j = c := by simpa using h3.2
    exact ⟨hcond.1, hcond.2, hlen, hc⟩

theorem innerK_pos (old : Nat → Nat) (j : Nat) : innerK old j ≠ 0 := by
  unfold innerK
  omega

theorem innerK_zero (old : Nat → Nat) : innerK old 0 = 1 := rfl

theorem innerK_succ (old : Nat → Nat) (j0 : Nat) : innerK old (j0 + 1) = old j0 + 1 := rfl

theorem innerK_facts {a b : Str} {alo blo bhi i : Nat} (hia : alo ≤ i)
    {old : Nat → Nat} (hold : DictPrev a b alo blo bhi i old)
    {j : Nat} (hj1 : blo ≤ j) (hj4 : getc b j = getc a i) :
    innerK old j + blo ≤ j + 1 ∧ innerK old j + alo ≤ i + 1 ∧
      ∀ t, t < innerK old j → getc a (i - t) = getc b (j - t) := by
  rcases j with _ | j0
  · rw [innerK_zero]
    refine ⟨by omega, by omega, ?_⟩
    intro t ht
    have ht0 : t = 0 := by omega
    subst ht0
    simpa using hj4.symm
  · rw [innerK_succ]
    by_cases h0 : old j0 = 0
    · rw [h0]
      refine ⟨by omega, by omega, ?_⟩
      intro t ht
      have ht0 : t = 0 := by omega
      subst ht0
      simpa using hj4.symm
    · obtain ⟨hp1, hp2, hp3, hp4, hp5⟩ := hold j0 h0
      refine ⟨by omega, by omega, ?_⟩
      intro t ht
      rcases t with _ | t0
      · simpa using hj4.symm
      · have e1 : i - (t0 + 1) = i - 1 - t0 := by omega
        have e2 : j0 + 1 - (t0 + 1) = j0 - t0 := by omega
        rw [e1, e2]
        exact hp5 t0 (by omega)

theorem innerStep_pres {a b : Str} {alo ahi blo bhi i : Nat} (hia : alo ≤ i) (hib : i < ahi)
    {old : Nat → Nat} (hold : DictPrev a b alo blo bhi i old)
    {st : FlmSt} (hst : StGen a b alo ahi blo bhi st)
    (hdict : DictPrev a b alo blo bhi (i + 1) st.j2len)
    {j : Nat} (hj1 : blo ≤ j) (hj2 : j < bhi) (hj4 : getc b j = getc a i) :
    StGen a b alo ahi blo bhi (innerStep i old st j) ∧
      DictPrev a b alo blo bhi (i + 1) (innerStep i old st j).j2len := by
  obtain ⟨hkb1, hkb2, hkb3⟩ := innerK_facts hia hold hj1 hj4
  have hupdate : ∀ x, (fun x => if x = j then innerK old j else st.j2len x) x =
      if x = j then innerK old j else st.j2len x := fun _ => rfl
  have hdict2 : DictPrev a b alo blo bhi (i + 1)
      (fun x => if x = j then innerK old j else st.j2len x) := by
    intro j2 hne
    rw [hupdate j2] at hne ⊢
    by_cases hx : j2 = j
    · rw [if_pos hx] at hne ⊢
      subst hx
      refine ⟨hj1, hj2, hkb1, by omega, ?_⟩
      intro t ht
      have e1 : i + 1 - 1 - t = i - t := by omega
      rw [e1]
      exact hkb3 t ht
    · rw [if_neg hx] at hne ⊢
      exact hdict j2 hne
  have hne0 := innerK_pos old j
  unfold innerStep
  by_cases hup : st.bestsize < innerK old j
  · simp only [if_pos hup]
    refine ⟨⟨?_, ?_, ?_, ?_⟩, hdict2⟩
    · show alo ≤ i + 1 - innerK old j
      omega
    · show blo ≤ j + 1 - innerK old j
      omega
    · intro _
      refine ⟨?_, ?_, ?_⟩
      · show i + 1 - innerK old j + innerK old j ≤ ahi
        omega
      · show j + 1 - innerK old j + innerK old j ≤ bhi
        omega
      · show ∀ t, t < innerK old j →
          getc a (i + 1 - innerK old j + t) = getc b (j + 1 - innerK old j + t)
        intro t ht
        have e1 : i + 1 - innerK old j + t = i - (innerK old j - 1 - t) := by omega
        have e2 : j + 1 - innerK old j + t = j - (innerK old j - 1 - t) := by omega
        rw [e1, e2]
        exact hkb3 (innerK old j - 1 - t) (by omega)
    · intro h0
      exact absurd h0 hne0
  · simp only [if_neg hup]
    exact ⟨⟨hst.1, hst.2.1, hst.2.2.1, hst.2.2.2⟩, hdict2⟩

theorem inner_foldl_gen {a b : Str} {alo ahi blo bhi i : Nat} (hia : alo ≤ i) (hib : i < ahi)
    {old : Nat → Nat} (hold : DictPrev a b alo blo bhi i old) :
    ∀ (js : List Nat) (st : FlmSt),
      (∀ j ∈ js, blo ≤ j ∧ j < bhi ∧ getc b j = getc a i) →
      StGen a b alo ahi blo bhi st →
      DictPrev a b alo blo bhi (i + 1) st.j2len →
      StGen a b alo ahi blo bhi (js.foldl (innerStep i old) st) ∧
        DictPrev a b alo blo bhi (i + 1) (js.foldl (innerStep i old) st).j2len := by
  intro js
  induction js with
  | nil => intro st _ hst hdict; exact ⟨hst, hdict⟩
  | cons j t ih =>
    intro st hmem hst hdict
    have hj := hmem j (List.mem_cons_self j t)
    have hstep := innerStep_pres hia hib hold hst hdict hj.1 hj.2.1 hj.2.2
    exact ih (innerStep i old st j) (fun j2 hj2 => hmem j2 (List.mem_cons_of_mem j hj2))
      hstep.1 hstep.2

theorem outer_loop_gen {a b : Str} {alo ahi blo bhi : Nat} :
    ∀ (cnt i0 : Nat) (st : FlmSt), alo ≤ i0 → i0 + cnt ≤ ahi →
      StGen a b alo ahi blo bhi st → DictPrev a b alo blo bhi i0 st.j2len →
      StGen a b alo ahi blo bhi ((List.range' i0 cnt).foldl (outerStep a b blo bhi) st) := by
  intro cnt
  induction cnt with
  | zero => intro i0 st _ _ hst _; exact hst
  | succ cnt ih =>
    intro i0 st h1 h2 hst hdict
    rw [show List.range' i0 (cnt + 1) = i0 :: List.range' (i0 + 1) cnt from rfl]
    simp only [List.foldl_cons]
    have hib : i0 < ahi := by omega
    have hinner := inner_foldl_gen h1 hib hdict
      ((b2j b (getc a i0)).filter (fun j => blo ≤ j ∧ j < bhi))
      ⟨st.besti, st.bestj, st.bestsize, fun _ => 0⟩
      (fun j hj => by
        have := mem_js hj
        exact ⟨this.1, this.2.1, this.2.2.2⟩)
      ⟨hst.1, hst.2.1, hst.2.2.1, hst.2.2.2⟩
      (fun j hne => absurd rfl hne)
    exact ih (i0 + 1) (outerStep a b blo bhi st i0) (by omega) (by omega) hinner.1 hinner.2

theorem flmDP_gen (a b : Str) (alo ahi blo bhi : Nat) :
    StGen a b alo ahi blo bhi (flmDP a b alo ahi blo bhi) := by
  unfold flmDP
  have hinit : StGen a b alo ahi blo bhi ⟨alo, blo, 0, fun _ => 0⟩ :=
    ⟨le_rfl, le_rfl, fun h => absurd rfl h, fun _ => ⟨rfl, rfl⟩⟩
  by_cases h : alo ≤ ahi
  · exact outer_loop_gen (ahi - alo) alo _ le_rfl (by omega) hinit
      (fun j hne => absurd rfl hne)
  · have h0 : ahi - alo = 0 := by omega
    rw [h0]
    exact hinit

theorem extBack_gen (a b : Str) (alo ahi blo bhi : Nat) :
    ∀ (bi bj bs : Nat),
      alo ≤ bi → blo ≤ bj →
      (bs ≠ 0 → bi + bs ≤ ahi ∧ bj + bs ≤ bhi) →
      (bs = 0 → bi = alo ∧ bj = blo) →
      (∀ t, t < bs → getc a (bi + t) = getc b (bj + t)) →
      FlmInv a b alo ahi blo bhi (extBack a b alo blo bi bj bs).1
        (extBack a b alo blo bi bj bs).2.1 (extBack a b alo blo bi bj bs).2.2 := by
  intro bi
  induction bi with
  | zero =>
    intro bj bs h1 h2 h3 h4 h5
    exact ⟨h1, h2, h3, h4, h5⟩
  | succ bi ih =>
    intro bj bs h1 h2 h3 h4 h5
    by_cases hg : alo < bi + 1 ∧ blo < bj ∧ getc a bi = getc b (bj - 1)
    · have hstep : extBack a b alo blo (bi + 1) bj bs =
          extBack a b alo blo bi (bj - 1) (bs + 1) := by
        show (if alo < bi + 1 ∧ blo < bj ∧ getc a bi = getc b (bj - 1) then
          extBack a b alo blo bi (bj - 1) (bs + 1) else (bi + 1, bj, bs)) = _
        rw [if_pos hg]
      rw [hstep]
      have hga := hg.1
      have hgb := hg.2.1
      have hne : bs ≠ 0 := by
        intro h0
        obtain ⟨ha, _⟩ := h4 h0
        omega
      obtain ⟨hb1, hb2⟩ := h3 hne
      refine ih (bj - 1) (bs + 1) (by omega) (by omega)
        (fun _ => ⟨by omega, by omega⟩) (by omega) ?_
      intro t ht
      rcases t with _ | t0
      · show getc a (bi + 0) = getc b (bj - 1 + 0)
        simpa using hg.2.2
      · have e1 : bi + (t0 + 1) = bi + 1 + t0 := by omega
        have e2 : bj - 1 + (t0 + 1) = bj + t0 := by omega
        rw [e1, e2]
        exact h5 t0 (by omega)
    · have hstep : extBack a b alo blo (bi + 1) bj bs = (bi + 1, bj, bs) := by
        show (if alo < bi + 1 ∧ blo < bj ∧ getc a bi = getc b (bj - 1) then
          extBack a b alo blo bi (bj - 1) (bs + 1) else (bi + 1, bj, bs)) = _
        rw [if_neg hg]
      rw [hstep]
      exact ⟨h1, h2, h3, h4, h5⟩

theorem extFwdF_gen (a b : Str) (ahi bhi bi bj : Nat) :
    ∀ (fuel bs : Nat),
      (bs ≠ 0 → bi + bs ≤ ahi ∧ bj + bs ≤ bhi) →
      (∀ t, t < bs → getc a (bi + t) = getc b (bj + t)) →
      (extFwdF a b ahi bhi bi bj fuel bs ≠ 0 →
          bi + extFwdF a b ahi bhi bi bj fuel bs ≤ ahi ∧
          bj + extFwdF a b ahi bhi bi bj fuel bs ≤ bhi) ∧
        (∀ t, t < extFwdF a b ahi bhi bi bj fuel bs →
          getc a (bi + t) = getc b (bj + t)) ∧
        (extFwdF a b ahi bhi bi bj fuel bs = 0 → bs = 0) := by
  intro fuel
  induction fuel with
  | zero => intro bs h1 h2; exact ⟨h1, h2, fun h => h⟩
  | succ fuel ih =>
    intro bs h1 h2
    show (extFwdF a b ahi bhi bi bj (fuel + 1) bs ≠ 0 → _) ∧ _
    by_cases hg : bi + bs < ahi ∧ bj + bs < bhi ∧ getc a (bi + bs) = getc b (bj + bs)
    · have hstep : extFwdF a b ahi bhi bi bj (fuel + 1) bs =
          extFwdF a b ahi bhi bi bj fuel (bs + 1) := by
        show (if bi + bs < ahi ∧ bj + bs < bhi ∧ getc a (bi + bs) = getc b (bj + bs) then
          extFwdF a b ahi bhi bi bj fuel (bs + 1) else bs) = _
        rw [if_pos hg]
      rw [hstep]
      have hrec := ih (bs + 1) (fun _ => by constructor <;> omega)
        (fun t ht => by
          rcases Nat.lt_succ_iff_lt_or_eq.1 ht with ht2 | ht2
          · exact h2 t ht2
          · subst ht2; exact hg.2.2)
      exact ⟨hrec.1, hrec.2.1, fun h => absurd (hrec.2.2 h) (by omega)⟩
    · have hstep : extFwdF a b ahi bhi bi bj (fuel + 1) bs = bs := by
        show (if bi + bs < ahi ∧ bj + bs < bhi ∧ getc a (bi + bs) = getc b (bj + bs) then
          extFwdF a b ahi bhi bi bj fuel (bs + 1) else bs) = _
        rw [if_neg hg]
      rw [hstep]
      exact ⟨h1, h2, fun h => h⟩

/-- The triple returned by find_longest_match is within bounds, anchored
at (alo, blo) when empty, and is a genuine matching block. -/
theorem flm_spec (a b : Str) (alo ahi blo bhi : Nat) :
    FlmInv a b alo ahi blo bhi (flm a b alo ahi blo bhi).1
      (flm a b alo ahi blo bhi).2.1 (flm a b alo ahi blo bhi).2.2 := by
  have hdp := flmDP_gen a b alo ahi blo bhi
  unfold flm
  have hback := extBack_gen a b alo ahi blo bhi (flmDP a b alo ahi blo bhi).besti
    (flmDP a b alo ahi blo bhi).bestj (flmDP a b alo ahi blo bhi).bestsize
    hdp.1 hdp.2.1
    (fun h => ⟨(hdp.2.2.1 h).1, (hdp.2.2.1 h).2.1⟩)
    hdp.2.2.2
    (fun t ht => (hdp.2.2.1 (by omega)).2.2 t ht)
  have hfwd := extFwdF_gen a b ahi bhi
    (extBack a b alo blo (flmDP a b alo ahi blo bhi).besti
      (flmDP a b alo ahi blo bhi).bestj (flmDP a b alo ahi blo bhi).bestsize).1
    (extBack a b alo blo (flmDP a b alo ahi blo bhi).besti
      (flmDP a b alo ahi blo bhi).bestj (flmDP a b alo ahi blo bhi).bestsize).2.1
    (ahi + 1)
    (extBack a b alo blo (flmDP a b alo ahi blo bhi).besti
      (flmDP a b alo ahi blo bhi).bestj (flmDP a b alo ahi blo bhi).bestsize).2.2
    (fun h => (hback.2.2.1 h))
    hback.2.2.2.2
  refine ⟨hback.1, hback.2.1, hfwd.1, ?_, hfwd.2.1⟩
  intro h0
  exact hback.2.2.2.1 (hfwd.2.2 h0)

/-! ## Slices and the matched-total bounds -/

theorem sliceL_getElemQ (x : Str) (lo hi n : Nat) :
    (sliceL x lo hi)[n]? = if lo + n < hi then x[lo + n]? else none := by
  unfold sliceL
  rw [List.getElem?_drop, List.getElem?_take]

theorem sliceL_nil {x : Str} {lo hi : Nat} (h : hi ≤ lo) : sliceL x lo hi = [] := by
  have hlen : (sliceL x lo hi).length = 0 := by
    unfold sliceL
    rw [List.length_drop, List.length_take]
    omega
  exact List.length_eq_zero.1 hlen

theorem sliceL_length {x : Str} {lo hi : Nat} (h1 : lo ≤ hi) (h2 : hi ≤ x.length) :
    (sliceL x lo hi).length = hi - lo := by
  unfold sliceL
  rw [List.length_drop, List.length_take]
  omega

theorem sliceL_eq_of_getc {a b : Str} {i j k : Nat}
    (ha : i + k ≤ a.length) (hb : j + k ≤ b.length)
    (h : ∀ t, t < k → getc a (i + t) = getc b (j + t)) :
    sliceL a i (i + k) = sliceL b j (j + k) := by
  apply List.ext_getElem?
  intro n
  rw [sliceL_getElemQ, sliceL_getElemQ]
  by_cases hn : n < k
  · rw [if_pos (by omega), if_pos (by omega)]
    have h1 : i + n < a.length := by omega
    have h2 : j + n < b.length := by omega
    rw [List.getElem?_eq_getElem h1, List.getElem?_eq_getElem h2]
    have hg := h n hn
    unfold getc at hg
    rw [List.getD_eq_getElem a ' ' h1, List.getD_eq_getElem b ' ' h2] at hg
    rw [hg]
  · rw [if_neg (by omega), if_neg (by omega)]

theorem sliceL_split (x : Str) (lo mid hi : Nat) (h1 : lo ≤ mid) (h2 : mid ≤ hi)
    (h3 : hi ≤ x.length) :
    sliceL x lo hi = sliceL x lo mid ++ sliceL x mid hi := by
  apply List.ext_getElem?
  intro n
  rw [sliceL_getElemQ]
  have hlen1 : (sliceL x lo mid).length = mid - lo := sliceL_length h1 (by omega)
  rw [List.getElem?_append, hlen1]
  by_cases hn : n < mid - lo
  · rw [if_pos hn, sliceL_getElemQ, if_pos (by omega), if_pos (by omega)]
  · rw [if_neg hn, sliceL_getElemQ]
    by_cases hh : lo + n < hi
    · rw [if_pos hh, if_pos (by omega)]
      congr 1
      omega
    · rw [if_neg hh, if_neg (by omega)]

theorem sliceL_full (x : Str) : sliceL x 0 x.length = x := by
  unfold sliceL
  rw [List.take_length, List.drop_zero]

theorem matchTotalF_le (a b : Str) :
    ∀ (fuel alo ahi blo bhi : Nat),
      matchTotalF a b fuel alo ahi blo bhi ≤ ahi - alo ∧
        matchTotalF a b fuel alo ahi blo bhi ≤ bhi - blo := by
  intro fuel
  induction fuel with
  | zero =>
    intro alo ahi blo bhi
    simp only [matchTotalF]
    omega
  | succ fuel ih =>
    intro alo ahi blo bhi
    have hspec := flm_spec a b alo ahi blo bhi
    unfold FlmInv at hspec
    simp only [matchTotalF]
    generalize hF : flm a b alo ahi blo bhi = F at hspec ⊢
    obtain ⟨i, j, k⟩ := F
    simp only at hspec ⊢
    obtain ⟨hs1, hs2, hs3, _, _⟩ := hspec
    by_cases hk : k = 0
    · rw [if_pos hk]
      omega
    · rw [if_neg hk]
      obtain ⟨hbi, hbj⟩ := hs3 hk
      have ihl := ih alo i blo j
      have ihr := ih (i + k) ahi (j + k) bhi
      by_cases hgl : alo < i ∧ blo < j
      · rw [if_pos hgl]
        by_cases hgr : i + k < ahi ∧ j + k < bhi
        · rw [if_pos hgr]; omega
        · rw [if_neg hgr]; omega
      · rw [if_neg hgl]
        by_cases hgr : i + k < ahi ∧ j + k < bhi
        · rw [if_pos hgr]; omega
        · rw [if_neg hgr]; omega

theorem matchTotalF_eq_of_full (a b : Str) :
    ∀ (fuel alo ahi blo bhi : Nat),
      alo ≤ ahi → blo ≤ bhi → ahi ≤ a.length → bhi ≤ b.length →
      matchTotalF a b fuel alo ahi blo bhi = ahi - alo →
      matchTotalF a b fuel alo ahi blo bhi = bhi - blo →
      sliceL a alo ahi = sliceL b blo bhi := by
  intro fuel
  induction fuel with
  | zero =>
    intro alo ahi blo bhi h1 h2 h3 h4 hM1 hM2
    simp only [matchTotalF] at hM1 hM2
    rw [sliceL_nil (by omega), sliceL_nil (by omega)]
  | succ fuel ih =>
    intro alo ahi blo bhi h1 h2 h3 h4 hM1 hM2
    have hspec := flm_spec a b alo ahi blo bhi
    unfold FlmInv at hspec
    simp only [matchTotalF] at hM1 hM2
    generalize hF : flm a b alo ahi blo bhi = F at hspec hM1 hM2
    obtain ⟨i, j, k⟩ := F
    simp only at hspec hM1 hM2
    obtain ⟨hs1, hs2, hs3, _, hs5⟩ := hspec
    by_cases hk : k = 0
    · rw [if_pos hk] at hM1 hM2
      rw [sliceL_nil (by omega), sliceL_nil (by omega)]
    · rw [if_neg hk] at hM1 hM2
      obtain ⟨hbi, hbj⟩ := hs3 hk
      have hMl_le : (if alo < i ∧ blo < j then matchTotalF a b fuel alo i blo j else 0) ≤ i - alo ∧
          (if alo < i ∧ blo < j then matchTotalF a b fuel alo i blo j else 0) ≤ j - blo := by
        by_cases hgl : alo < i ∧ blo < j
        · rw [if_pos hgl]; exact matchTotalF_le a b fuel alo i blo j
        · rw [if_neg hgl]; omega
      have hMr_le : (if i + k < ahi ∧ j + k < bhi then
            matchTotalF a b fuel (i + k) ahi (j + k) bhi else 0) ≤ ahi - (i + k) ∧
          (if i + k < ahi ∧ j + k < bhi then
            matchTotalF a b fuel (i + k) ahi (j + k) bhi else 0) ≤ bhi - (j + k) := by
        by_cases hgr : i + k < ahi ∧ j + k < bhi
        · rw [if_pos hgr]; exact matchTotalF_le a b fuel (i + k) ahi (j + k) bhi
        · rw [if_neg hgr]; omega
      have hMl_eq : (if alo < i ∧ blo < j then matchTotalF a b fuel alo i blo j else 0) =
          i - alo ∧ (if alo < i ∧ blo < j then matchTotalF a b fuel alo i blo j else 0) =
          j - blo := by omega
      have hMr_eq : (if i + k < ahi ∧ j + k < bhi then
            matchTotalF a b fuel (i + k) ahi (j + k) bhi else 0) = ahi - (i + k) ∧
          (if i + k < ahi ∧ j + k < bhi then
            matchTotalF a b fuel (i + k) ahi (j + k) bhi else 0) = bhi - (j + k) := by omega
      have hleft : sliceL a alo i = sliceL b blo j := by
        by_cases hgl : alo < i ∧ blo < j
        · rw [if_pos hgl] at hMl_eq
          exact ih alo i blo j (by omega) (by omega) (by omega) (by omega) hMl_eq.1 hMl_eq.2
        · rw [if_neg hgl] at hMl_eq
          have hia : i = alo := by omega
          have hjb : j = blo := by omega
          rw [hia, hjb, sliceL_nil le_rfl, sliceL_nil le_rfl]
      have hmid : sliceL a i (i + k) = sliceL b j (j + k) :=
        sliceL_eq_of_getc (by omega) (by omega) hs5
      have hright : sliceL a (i + k) ahi = sliceL b (j + k) bhi := by
        by_cases hgr : i + k < ahi ∧ j + k < bhi
        · rw [if_pos hgr] at hMr_eq
          exact ih (i + k) ahi (j + k) bhi (by omega) (by omega) h3 h4 hMr_eq.1 hMr_eq.2
        · rw [if_neg hgr] at hMr_eq
          have hia : i + k = ahi := by omega
          have hjb : j + k = bhi := by omega
          rw [hia, hjb, sliceL_nil le_rfl, sliceL_nil le_rfl]
      rw [sliceL_split a alo i ahi (by omega) (by omega) h3,
        sliceL_split a i (i + k) ahi (by omega) (by omega) h3,
        sliceL_split b blo j bhi (by omega) (by omega) h4,
        sliceL_split b j (j + k) bhi (by omega) (by omega) h4,
        hleft, hmid, hright]

theorem matchTotal_le (a b : Str) : matchTotal a b ≤ a.length ∧ matchTotal a b ≤ b.length := by
  unfold matchTotal
  have := matchTotalF_le a b (a.length + b.length + 1) 0 a.length 0 b.length
  simpa using this

theorem matchTotal_eq_of_full (a b : Str) (h1 : matchTotal a b = a.length)
    (h2 : matchTotal a b = b.length) : a = b := by
  unfold matchTotal at h1 h2
  have := matchTotalF_eq_of_full a b (a.length + b.length + 1) 0 a.length 0 b.length
    (by omega) (by omega) le_rfl le_rfl (by simpa using h1) (by simpa using h2)
  rwa [sliceL_full, sliceL_full] at this

/-! ## The diagonal run analysis: ratio of a string with itself -/

theorem rrun_pos {x : Str} {j : Nat} (h : rare x j = true) : 1 ≤ rrun x j := by
  rcases j with _ | j0 <;> simp [rrun, h]

theorem rrun_succ_of_rare {x : Str} {j0 : Nat} (h : rare x (j0 + 1) = true) :
    rrun x (j0 + 1) = rrun x j0 + 1 := by
  simp [rrun, h]

theorem rrun_zero_of_not_rare {x : Str} {j : Nat} (h : rare x j = false) : rrun x j = 0 := by
  rcases j with _ | j0 <;> simp [rrun, h]

theorem mem_js_not_popular {b : Str} {c : Char} {p : Nat → Bool} {j : Nat}
    (h : j ∈ (b2j b c).filter p) : popularChar b c = false := by
  have hb : j ∈ b2j b c := (List.mem_filter.1 h).1
  unfold b2j at hb
  by_cases hp : popularChar b c
  · rw [if_pos hp] at hb
    cases hb
  · exact Bool.eq_false_iff.2 hp

theorem mem_js_diag {x : Str} {i j : Nat}
    (h : j ∈ (b2j x (getc x i)).filter (fun j => 0 ≤ j ∧ j < x.length)) :
    rare x j = true ∧ rare x i = true ∧ j < x.length := by
  have h1 := mem_js h
  have h2 := mem_js_not_popular h
  have hri : rare x i = true := by
    unfold rare
    rw [h2]
    rfl
  have hrj : rare x j = true := by
    unfold rare
    rw [h1.2.2.2, h2]
    rfl
  exact ⟨hrj, hri, h1.2.2.1⟩

theorem i_mem_js_diag {x : Str} {i : Nat} (hi : i < x.length) (hr : rare x i = true) :
    i ∈ (b2j x (getc x i)).filter (fun j => 0 ≤ j ∧ j < x.length) := by
  have hpop : popularChar x (getc x i) = false := by
    unfold rare at hr
    simpa using hr
  apply List.mem_filter.2
  constructor
  · unfold b2j
    rw [if_neg (by simp [hpop])]
    unfold positions
    exact List.mem_filter.2 ⟨List.mem_range.2 hi, by simp⟩
  · simp [hi]

theorem js_pairwise (b : Str) (c : Char) (p : Nat → Bool) :
    ((b2j b c).filter p).Pairwise (· < ·) := by
  apply List.Pairwise.filter
  unfold b2j
  by_cases hp : popularChar b c
  · rw [if_pos hp]
    exact List.Pairwise.nil
  · rw [if_neg hp]
    exact List.Pairwise.filter _ (List.pairwise_lt_range b.length)

theorem inner_fold_dict (i : Nat) (old : Nat → Nat) :
    ∀ (js : List Nat) (st : FlmSt) (j2 : Nat),
      (js.foldl (innerStep i old) st).j2len j2 =
        if j2 ∈ js then innerK old j2 else st.j2len j2 := by
  intro js
  induction js with
  | nil => intro st j2; simp
  | cons j t ih =>
    intro st j2
    simp only [List.foldl_cons]
    rw [ih]
    have hstep : (innerStep i old st j).j2len j2 =
        if j2 = j then innerK old j else st.j2len j2 := by
      unfold innerStep
      by_cases hup : st.bestsize < innerK old j
      · rw [if_pos hup]
      · rw [if_neg hup]
    rw [hstep]
    by_cases hjt : j2 ∈ t
    · simp [hjt]
    · by_cases hjj : j2 = j
      · simp [hjt, hjj]
      · simp [hjt, hjj]

theorem innerK_diag_le {x : Str} {i0 : Nat} {old : Nat → Nat} (hOld : OldOK x i0 old)
    {j : Nat} (hrj : rare x j = true) (hri : rare x i0 = true) :
    innerK old j ≤ rrun x i0 ∧ innerK old j ≤ rrun x j := by
  rcases j with _ | j0
  · rw [innerK_zero]
    exact ⟨rrun_pos hri, rrun_pos hrj⟩
  · rw [innerK_succ]
    by_cases h0 : old j0 = 0
    · rw [h0]
      exact ⟨rrun_pos hri, rrun_pos hrj⟩
    · obtain ⟨ip, hip, hle1, hle2⟩ := hOld.1 j0 h0
      constructor
      · rw [hip, rrun_succ_of_rare (hip ▸ hri)]
        omega
      · rw [rrun_succ_of_rare hrj]
        omega

theorem innerK_diag_exact {x : Str} {i0 : Nat} {old : Nat → Nat} (hOld : OldOK x i0 old)
    (hri : rare x i0 = true) : innerK old i0 = rrun x i0 := by
  rcases i0 with _ | ip
  · rw [innerK_zero]
    simp [rrun, hri]
  · rw [innerK_succ, hOld.2 ip rfl, rrun_succ_of_rare hri]

theorem inner_diag_fold (x : Str) (i : Nat) (old : Nat → Nat) :
    ∀ (js : List Nat) (st : FlmSt),
      js.Pairwise (· < ·) →
      (∀ j ∈ js, innerK old j ≤ rrun x i ∧ innerK old j ≤ rrun x j) →
      (i ∈ js → innerK old i = rrun x i) →
      st.besti = st.bestj →
      (∀ j0, j0 < i → rrun x j0 ≤ st.bestsize) →
      (i ∈ js ∨ rrun x i ≤ st.bestsize) →
      (js.foldl (innerStep i old) st).besti = (js.foldl (innerStep i old) st).bestj ∧
        ∀ j0, j0 ≤ i → rrun x j0 ≤ (js.foldl (innerStep i old) st).bestsize := by
  intro js
  induction js with
  | nil =>
    intro st _ _ _ hbb hprev hdisj
    refine ⟨hbb, ?_⟩
    intro j0 hj0
    rcases Nat.lt_or_ge j0 i with hlt | hge
    · exact hprev j0 hlt
    · have hj0i : j0 = i := by omega
      subst hj0i
      rcases hdisj with hin | hle2
      · cases hin
      · exact hle2
  | cons j t ih =>
    intro st hpw hkle hkex hbb hprev hdisj
    simp only [List.foldl_cons]
    have hkj := hkle j (List.mem_cons_self j t)
    have hpwt := (List.pairwise_cons.1 hpw).2
    have hpwh := (List.pairwise_cons.1 hpw).1
    by_cases hup : st.bestsize < innerK old j
    · have hji : j = i := by
        by_contra hne
        rcases Nat.lt_or_ge j i with hlt | hge
        · have h1 := hkj.2
          have h2 := hprev j hlt
          omega
        · have hgt : i < j := by omega
          have hri_le : rrun x i ≤ st.bestsize := by
            rcases hdisj with hin | hle2
            · rcases List.mem_cons.1 hin with h | h
              · omega
              · have := hpwh i h
                omega
            · exact hle2
          have h1 := hkj.1
          omega
      have him : i ∈ j :: t := by
        rw [hji]
        exact List.mem_cons_self i t
      have hkex2 : innerK old i = rrun x i := hkex him
      have hkeq : innerK old j = innerK old i := by rw [hji]
      have hstep : innerStep i old st j = ⟨i + 1 - innerK old j, j + 1 - innerK old j,
          innerK old j, fun x2 => if x2 = j then innerK old j else st.j2len x2⟩ := by
        unfold innerStep
        rw [if_pos hup]
      rw [hstep]
      refine ih _ hpwt (fun j2 hj2 => hkle j2 (List.mem_cons_of_mem j hj2)) ?_ ?_ ?_ ?_
      · intro hit
        exact absurd (hpwh i hit) (by omega)
      · show i + 1 - innerK old j = j + 1 - innerK old j
        omega
      · intro j0 hj0
        show rrun x j0 ≤ innerK old j
        have := hprev j0 hj0
        omega
      · right
        show rrun x i ≤ innerK old j
        omega
    · have hstep : (innerStep i old st j).besti = st.besti ∧
          (innerStep i old st j).bestj = st.bestj ∧
          (innerStep i old st j).bestsize = st.bestsize := by
        unfold innerStep
        rw [if_neg hup]
        exact ⟨rfl, rfl, rfl⟩
      refine ih _ hpwt (fun j2 hj2 => hkle j2 (List.mem_cons_of_mem j hj2))
        (fun hit => hkex (List.mem_cons_of_mem j hit)) ?_ ?_ ?_
      · rw [hstep.1, hstep.2.1]
        exact hbb
      · intro j0 hj0
        rw [hstep.2.2]
        exact hprev j0 hj0
      · rcases hdisj with hin | hle2
        · rcases List.mem_cons.1 hin with h | h
          · right
            rw [hstep.2.2]
            have := hkex (by rw [h]; exact List.mem_cons_self j t)
            rw [h] at this ⊢
            omega
          · left
            exact h
        · right
          rw [hstep.2.2]
          exact hle2

theorem outer_diag_fold (x : Str) :
    ∀ (cnt i0 : Nat) (st : FlmSt),
      i0 + cnt ≤ x.length →
      st.besti = st.bestj →
      (∀ j0, j0 < i0 → rrun x j0 ≤ st.bestsize) →
      OldOK x i0 st.j2len →
      ((List.range' i0 cnt).foldl (outerStep x x 0 x.length) st).besti =
        ((List.range' i0 cnt).foldl (outerStep x x 0 x.length) st).bestj := by
  intro cnt
  induction cnt with
  | zero => intro i0 st _ hbb _ _; exact hbb
  | succ cnt ih =>
    intro i0 st hlen hbb hprev hOld
    rw [show List.range' i0 (cnt + 1) = i0 :: List.range' (i0 + 1) cnt from rfl]
    simp only [List.foldl_cons]
    have hi0len : i0 < x.length := by omega
    have hkle : ∀ j ∈ (b2j x (getc x i0)).filter (fun j => 0 ≤ j ∧ j < x.length),
        innerK st.j2len j ≤ rrun x i0 ∧ innerK st.j2len j ≤ rrun x j := by
      intro j hj
      obtain ⟨hrj, hri, _⟩ := mem_js_diag hj
      exact innerK_diag_le hOld hrj hri
    have hkex : i0 ∈ (b2j x (getc x i0)).filter (fun j => 0 ≤ j ∧ j < x.length) →
        innerK st.j2len i0 = rrun x i0 := by
      intro hin
      obtain ⟨_, hri, _⟩ := mem_js_diag hin
      exact innerK_diag_exact hOld hri
    have hdisj : i0 ∈ (b2j x (getc x i0)).filter (fun j => 0 ≤ j ∧ j < x.length) ∨
        rrun x i0 ≤ (⟨st.besti, st.bestj, st.bestsize, fun _ => 0⟩ : FlmSt).bestsize := by
      by_cases hr : rare x i0 = true
      · exact Or.inl (i_mem_js_diag hi0len hr)
      · right
        rw [rrun_zero_of_not_rare (by simpa using hr)]
        exact Nat.zero_le _
    have hinner := inner_diag_fold x i0 st.j2len
      ((b2j x (getc x i0)).filter (fun j => 0 ≤ j ∧ j < x.length))
      ⟨st.besti, st.bestj, st.bestsize, fun _ => 0⟩
      (js_pairwise x (getc x i0) _) hkle hkex hbb hprev hdisj
    have houter : outerStep x x 0 x.length st i0 =
        ((b2j x (getc x i0)).filter (fun j => 0 ≤ j ∧ j < x.length)).foldl
          (innerStep i0 st.j2len) ⟨st.besti, st.bestj, st.bestsize, fun _ => 0⟩ := rfl
    have hOld2 : OldOK x (i0 + 1) (outerStep x x 0 x.length st i0).j2len := by
      constructor
      · intro j2 hne
        rw [houter, inner_fold_dict] at hne
        by_cases hmem : j2 ∈ (b2j x (getc x i0)).filter (fun j => 0 ≤ j ∧ j < x.length)
        · rw [houter, inner_fold_dict, if_pos hmem]
          exact ⟨i0, rfl, (hkle j2 hmem).1, (hkle j2 hmem).2⟩
        · rw [if_neg hmem] at hne
          exact absurd rfl hne
      · intro ip hip
        have hipi : ip = i0 := by omega
        subst hipi
        rw [houter, inner_fold_dict]
        by_cases hmem : ip ∈ (b2j x (getc x ip)).filter (fun j => 0 ≤ j ∧ j < x.length)
        · rw [if_pos hmem]
          exact hkex hmem
        · rw [if_neg hmem]
          by_cases hr : rare x ip = true
          · exact absurd (i_mem_js_diag (by omega) hr) hmem
          · rw [rrun_zero_of_not_rare (by simpa using hr)]
    refine ih (i0 + 1) (outerStep x x 0 x.length st i0) (by omega) ?_ ?_ hOld2
    · rw [houter]
      exact hinner.1
    · intro j0 hj0
      rw [houter]
      exact hinner.2 j0 (by omega)

theorem flmDP_diag (x : Str) :
    (flmDP x x 0 x.length 0 x.length).besti = (flmDP x x 0 x.length 0 x.length).bestj := by
  unfold flmDP
  rw [Nat.sub_zero]
  exact outer_diag_fold x x.length 0 ⟨0, 0, 0, fun _ => 0⟩ (by omega) rfl
    (fun j0 h => absurd h (Nat.not_lt_zero j0))
    ⟨fun j hne => absurd rfl hne, fun ip h => absurd h (by omega)⟩

theorem extBack_diag (x : Str) (d : Nat) : ∀ s : Nat, extBack x x 0 0 d d s = (0, 0, s + d) := by
  induction d with
  | zero => intro s; rfl
  | succ d ih =>
    intro s
    have hstep : extBack x x 0 0 (d + 1) (d + 1) s = extBack x x 0 0 d d (s + 1) := by
      show (if 0 < d + 1 ∧ 0 < d + 1 ∧ getc x d = getc x (d + 1 - 1) then
        extBack x x 0 0 d (d + 1 - 1) (s + 1) else (d + 1, d + 1, s)) = _
      rw [if_pos ⟨Nat.succ_pos d, Nat.succ_pos d, by rw [Nat.add_sub_cancel]⟩,
        Nat.add_sub_cancel]
    rw [hstep, ih (s + 1)]
    have h : s + 1 + d = s + (d + 1) := by omega
    rw [h]

theorem extFwd_diag (x : Str) :
    ∀ (fuel bs : Nat), bs ≤ x.length → x.length ≤ bs + fuel →
      extFwdF x x x.length x.length 0 0 fuel bs = x.length := by
  intro fuel
  induction fuel with
  | zero =>
    intro bs h1 h2
    show bs = x.length
    omega
  | succ fuel ih =>
    intro bs h1 h2
    by_cases hbs : bs < x.length
    · have hstep : extFwdF x x x.length x.length 0 0 (fuel + 1) bs =
          extFwdF x x x.length x.length 0 0 fuel (bs + 1) := by
        show (if 0 + bs < x.length ∧ 0 + bs < x.length ∧ getc x (0 + bs) = getc x (0 + bs) then
          extFwdF x x x.length x.length 0 0 fuel (bs + 1) else bs) = _
        rw [if_pos ⟨by omega, by omega, rfl⟩]
      rw [hstep]
      exact ih (bs + 1) (by omega) (by omega)
    · have hstep : extFwdF x x x.length x.length 0 0 (fuel + 1) bs = bs := by
        show (if 0 + bs < x.length ∧ 0 + bs < x.length ∧ getc x (0 + bs) = getc x (0 + bs) then
          extFwdF x x x.length x.length 0 0 fuel (bs + 1) else bs) = _
        rw [if_neg (by omega)]
      rw [hstep]
      omega

/-- find_longest_match of a string with itself over the full range returns
the whole string: whatever diagonal block the dynamic program finds, the
two extension loops stretch it to the full length. -/
theorem flm_diag (x : Str) : flm x x 0 x.length 0 x.length = (0, 0, x.length) := by
  have hgen := flmDP_gen x x 0 x.length 0 x.length
  have hbb := flmDP_diag x
  have hflm : flm x x 0 x.length 0 x.length =
      ((extBack x x 0 0 (flmDP x x 0 x.length 0 x.length).besti
          (flmDP x x 0 x.length 0 x.length).bestj
          (flmDP x x 0 x.length 0 x.length).bestsize).1,
        (extBack x x 0 0 (flmDP x x 0 x.length 0 x.length).besti
          (flmDP x x 0 x.length 0 x.length).bestj
          (flmDP x x 0 x.length 0 x.length).bestsize).2.1,
        extFwd x x x.length x.length
          (extBack x x 0 0 (flmDP x x 0 x.length 0 x.length).besti
            (flmDP x x 0 x.length 0 x.length).bestj
            (flmDP x x 0 x.length 0 x.length).bestsize).1
          (extBack x x 0 0 (flmDP x x 0 x.length 0 x.length).besti
            (flmDP x x 0 x.length 0 x.length).bestj
            (flmDP x x 0 x.length 0 x.length).bestsize).2.1
          (extBack x x 0 0 (flmDP x x 0 x.length 0 x.length).besti
            (flmDP x x 0 x.length 0 x.length).bestj
            (flmDP x x 0 x.length 0 x.length).bestsize).2.2) := rfl
  rw [hflm, ← hbb, extBack_diag x (flmDP x x 0 x.length 0 x.length).besti
    (flmDP x x 0 x.length 0 x.length).bestsize]
  show ((0 : Nat), (0 : Nat), extFwd x x x.length x.length 0 0
    ((flmDP x x 0 x.length 0 x.length).bestsize +
      (flmDP x x 0 x.length 0 x.length).besti)) = ((0 : Nat), (0 : Nat), x.length)
  have hsb : (flmDP x x 0 x.length 0 x.length).bestsize +
      (flmDP x x 0 x.length 0 x.length).besti ≤ x.length := by
    by_cases h0 : (flmDP x x 0 x.length 0 x.length).bestsize = 0
    · have hanch := hgen.2.2.2 h0
      omega
    · have hb := (hgen.2.2.1 h0).1
      omega
  unfold extFwd
  rw [extFwd_diag x (x.length + 1) _ hsb (by omega)]

theorem matchTotal_self (x : Str) : matchTotal x x = x.length := by
  unfold matchTotal
  simp only [matchTotalF, flm_diag]
  by_cases hn : x.length = 0
  · simp [hn]
  · simp [hn]

theorem ratioQ_self (x : Str) : ratioQ x x = 1 := by
  unfold ratioQ
  by_cases h : x.length + x.length = 0
  · rw [if_pos h]
  · rw [if_neg h, matchTotal_self]
    have hpos : (0 : ℚ) < (x.length : ℚ) + (x.length : ℚ) := by
      have h2 : 0 < x.length := by omega
      have h3 : (0 : ℚ) < (x.length : ℚ) := by exact_mod_cast h2
      linarith
    field_simp
    ring

/-- C8 amended witness at a concrete empty Learning Store. -/
theorem unlearned_feedback_witness :
    reject (⟨demoStore, [], true⟩ : ResolverState) "wbc".data "6690-2".data =
        (⟨demoStore, [], true⟩ : ResolverState) ∧
      confirm (⟨demoStore, [], true⟩ : ResolverState) "wbc".data "6690-2".data =
        { (⟨demoStore, [], true⟩ : ResolverState) with
            learned := ([] : List LearnedRow) ++
              [⟨"wbc".data, normalize "wbc".data, "6690-2".data, (0.95 : ℚ), 1⟩] } :=
  unlearned_feedback (⟨demoStore, [], true⟩ : ResolverState) "wbc".data "6690-2".data
    (by with_unfolding_all decide)

/-- C9 counterexample: the similarity score is not symmetric.
similarity("aba", "babba") = 0.75 while similarity("babba", "aba") = 0.5,
exactly as difflib.SequenceMatcher computes on these inputs, because
ratio() depends on which argument plays the role of the b-side index. -/
theorem similarity_not_symmetric :
    similarity "aba".data "babba".data = 3 / 4 ∧
      similarity "babba".data "aba".data = 1 / 2 ∧
      similarity "aba".data "babba".data ≠ similarity "babba".data "aba".data := by
  with_unfolding_all decide

/-- C9 (amended): the similarity score always lies in [0, 1]; it equals 1
exactly when the two inputs agree after case folding; and every string has
similarity 1 with itself, including strings whose characters are purged as
popular by the autojunk heuristic. Symmetry, however, fails (see the
counterexample theorem). -/
theorem similarity_props (a b : Str) :
    0 ≤ similarity a b ∧ similarity a b ≤ 1 ∧
      (similarity a b = 1 ↔ lowerS a = lowerS b) ∧ similarity a a = 1 := by
  have hself : similarity a a = 1 := ratioQ_self (lowerS a)
  refine ⟨?_, ?_, ⟨?_, ?_⟩, hself⟩
  · unfold similarity ratioQ
    by_cases h : (lowerS a).length + (lowerS b).length = 0
    · rw [if_pos h]
      norm_num
    · rw [if_neg h]
      apply div_nonneg
      · positivity
      · positivity
  · unfold similarity ratioQ
    by_cases h : (lowerS a).length + (lowerS b).length = 0
    · rw [if_pos h]
    · rw [if_neg h]
      have hM := matchTotal_le (lowerS a) (lowerS b)
      have hT : (0 : ℚ) < ((lowerS a).length : ℚ) + ((lowerS b).length : ℚ) := by
        have h2 : 0 < (lowerS a).length + (lowerS b).length := Nat.pos_of_ne_zero h
        exact_mod_cast h2
      rw [div_le_one hT]
      have h2 : 2 * matchTotal (lowerS a) (lowerS b) ≤
          (lowerS a).length + (lowerS b).length := by omega
      exact_mod_cast h2
  · intro h1
    unfold similarity ratioQ at h1
    by_cases h : (lowerS a).length + (lowerS b).length = 0
    · have ha : lowerS a = [] := List.length_eq_zero.1 (by omega)
      have hb : lowerS b = [] := List.length_eq_zero.1 (by omega)
      rw [ha, hb]
    · rw [if_neg h] at h1
      have hT : ((lowerS a).length : ℚ) + ((lowerS b).length : ℚ) ≠ 0 := by
        have h2 : 0 < (lowerS a).length + (lowerS b).length := Nat.pos_of_ne_zero h
        have h3 : (0 : ℚ) < ((lowerS a).length : ℚ) + ((lowerS b).length : ℚ) := by
          exact_mod_cast h2
        exact ne_of_gt h3
      rw [div_eq_one_iff_eq hT] at h1
      have h2 : 2 * matchTotal (lowerS a) (lowerS b) =
          (lowerS a).length + (lowerS b).length := by exact_mod_cast h1
      have hM := matchTotal_le (lowerS a) (lowerS b)
      exact matchTotal_eq_of_full (lowerS a) (lowerS b) (by omega) (by omega)
  · intro h2
    show ratioQ (lowerS a) (lowerS b) = 1
    rw [h2]
    exact ratioQ_self (lowerS b)

end Rosetta
